import Mathlib

/-!
# Principia: permutations of the coordinate axes, signs and Чебышёв series

A shallow embedding of `geometry/sign_body.hpp`, `geometry/permutation_body.hpp`
and `numerics/чебышёв_series_body.hpp`, of the N-body system declared in
`physics/n_body_system.hpp` and of the interchange conversions of
`ksp_plugin/interface_body.hpp`, followed by the properties proved about them.
Frames are type-level tags in the source and are kept as phantom type
parameters here.
-/

namespace principia

namespace geometry

/-! ## Sign (`geometry/sign_body.hpp`) -/

/-- Something that can take the values -1 and 1; the class holds one boolean,
`negative_`. -/
structure Sign where
  negative_ : Bool
  deriving DecidableEq

namespace Sign

/-- The constructor `Sign::Sign(Scalar const& scalar)`:
`negative_(scalar < Scalar{})`, where `Scalar{}` is the zero of the type. -/
def ofScalar {S : Type} [Zero S] [LT S] [DecidableRel (fun a b : S => a < b)]
    (scalar : S) : Sign :=
  ⟨decide (scalar < 0)⟩

/-- The member `Sign::Negative`. -/
def Negative (s : Sign) : Bool := s.negative_

/-- The member `Sign::Positive`. -/
def Positive (s : Sign) : Bool := !s.negative_

/-- The product `operator*(Sign const& left, Sign const& right)`:
`Sign(left.negative_ == right.negative_ ? 1 : -1)`. -/
def mul (left right : Sign) : Sign :=
  ofScalar (if left.negative_ = right.negative_ then (1 : Int) else -1)

/-- The action `operator*(Sign const& left, T const& right)`:
`left.negative_ ? -right : right`. -/
def smul {T : Type} [Neg T] (left : Sign) (right : T) : T :=
  if left.negative_ then -right else right

/-- The member `Sign::operator==`: `negative_ == other.negative_`. -/
def eq (self other : Sign) : Bool := self.negative_ == other.negative_

/-- The member `Sign::operator!=`: `negative_ != other.negative_`. -/
def ne (self other : Sign) : Bool := self.negative_ != other.negative_

end Sign

end geometry

namespace serialization

/-- Modelled from the spec: the message `serialization::Sign` (the protocol
buffer declarations are not among the sources), with its one field
`negative: bool`. -/
structure Sign where
  negative : Bool
  deriving DecidableEq

/-- Modelled from the spec: the message `serialization::ЧебышёвSeries` (the
protocol buffer declarations are not among the sources): a repeated
`coefficient` field and the sub-messages `t_min` and `t_max`, each a
serialized instant. -/
structure ChebyshevSeries (Coefficient Point : Type) where
  coefficient : List Coefficient
  t_min : Point
  t_max : Point

end serialization

namespace geometry

namespace Sign

/-- The member `Sign::WriteToMessage(message)`:
`message->set_negative(negative_)`, the message passed in and out. -/
def WriteToMessage (self : Sign) (_message : serialization.Sign) :
    serialization.Sign :=
  { negative := self.negative_ }

/-- The static member `Sign::ReadFromMessage(message)`:
`Sign(message.negative() ? -1 : 1)`. -/
def ReadFromMessage (message : serialization.Sign) : Sign :=
  ofScalar (if message.negative then (-1 : Int) else 1)

end Sign

/-! ## Coordinate triples -/

/-- Modelled from the spec: the coordinate triple `R3Element<Scalar>`
(`geometry/r3_element.hpp` is not among the sources): three components,
read by axis index 0, 1, 2, with component-wise negation. -/
structure R3Element (S : Type) where
  x : S
  y : S
  z : S
  deriving DecidableEq

namespace R3Element

/-- Modelled from the spec: indexed read access `r3_element[index]` of the
missing `R3Element`, defined for the axes 0, 1, 2 only. -/
def get? {S : Type} (r : R3Element S) (index : Int) : Option S :=
  if index = 0 then some r.x
  else if index = 1 then some r.y
  else if index = 2 then some r.z
  else none

/-- Modelled from the spec: component-wise negation of the missing
`R3Element`. -/
instance {S : Type} [Neg S] : Neg (R3Element S) :=
  ⟨fun r => ⟨-r.x, -r.y, -r.z⟩⟩

end R3Element

/-! ## Permutation (`geometry/permutation_body.hpp`) -/

/-- The six enumerators of `Permutation::CoordinatePermutation`. -/
inductive CoordinatePermutation where
  | XYZ | YZX | ZXY | XZY | ZYX | YXZ
  deriving DecidableEq

namespace CoordinatePermutation

/-- Modelled from the spec: the coordinate indices `x`, `y`, `z` of the missing
`geometry/permutation.hpp`. -/
def x : Int := 0

/-- Modelled from the spec: the coordinate index `y`. -/
def y : Int := 1

/-- Modelled from the spec: the coordinate index `z`. -/
def z : Int := 2

/-- Modelled from the spec: the parity summand of an even enumerator. -/
def even : Int := 0

/-- Modelled from the spec: the parity summand of an odd enumerator, the sign
bit of a 32-bit `int`, which makes the enumerator negative. -/
def odd : Int := -2147483648

/-- Modelled from the spec: the integer value of each enumerator (the enum
declaration in `geometry/permutation.hpp` is not among the sources).  Bits
`2i` and `2i + 1` hold the index of the input coordinate that becomes
coordinate `i` of the result, in the order the enumerator's name spells, and
the odd permutations carry the sign bit. -/
def toInt : CoordinatePermutation → Int
  | XYZ => even + (x <<< (x * 2)) + (y <<< (y * 2)) + (z <<< (z * 2))
  | YZX => even + (y <<< (x * 2)) + (z <<< (y * 2)) + (x <<< (z * 2))
  | ZXY => even + (z <<< (x * 2)) + (x <<< (y * 2)) + (y <<< (z * 2))
  | XZY => odd + (x <<< (x * 2)) + (z <<< (y * 2)) + (y <<< (z * 2))
  | ZYX => odd + (z <<< (x * 2)) + (y <<< (y * 2)) + (x <<< (z * 2))
  | YXZ => odd + (y <<< (x * 2)) + (x <<< (y * 2)) + (z <<< (z * 2))

end CoordinatePermutation

/-! ### Multivectors -/

/-- Modelled from the spec: `Vector<Scalar, Frame>` of the missing
`geometry/grassmann.hpp`, a coordinate triple tagged with a frame. -/
structure Vector (S : Type) (Frame : Type) where
  coordinates : R3Element S
  deriving DecidableEq

/-- Modelled from the spec: `Bivector<Scalar, Frame>` of the missing
`geometry/grassmann.hpp`, a coordinate triple tagged with a frame. -/
structure Bivector (S : Type) (Frame : Type) where
  coordinates : R3Element S
  deriving DecidableEq

/-- Modelled from the spec: `Trivector<Scalar, Frame>` of the missing
`geometry/grassmann.hpp`, a single scalar tagged with a frame. -/
structure Trivector (S : Type) (Frame : Type) where
  coordinates : S
  deriving DecidableEq

/-! ### Products of coordinate triples and of multivectors

`geometry/r3_element.hpp` and `geometry/grassmann.hpp` are not among the
sources; only `geometry/grassmann_test.cpp`, which exercises them, is. -/

namespace R3Element

/-- Modelled from the spec: component-wise subtraction of the missing
`R3Element`. -/
instance {S : Type} [Sub S] : Sub (R3Element S) :=
  ⟨fun a b => ⟨a.x - b.x, a.y - b.y, a.z - b.z⟩⟩

/-- Modelled from the spec: scaling `left * right` of the missing `R3Element`
by a scalar on the right, component-wise. -/
def scale_right {S : Type} [Mul S] (left : R3Element S) (right : S) :
    R3Element S :=
  ⟨left.x * right, left.y * right, left.z * right⟩

/-- Modelled from the spec: scaling `left * right` of the missing `R3Element`
by a scalar on the left, component-wise. -/
def scale_left {S : Type} [Mul S] (left : S) (right : R3Element S) :
    R3Element S :=
  ⟨left * right.x, left * right.y, left * right.z⟩

/-- Modelled from the spec: `Dot` of the missing `R3Element`, the sum of the
component products. -/
def Dot {S : Type} [Add S] [Mul S] (left right : R3Element S) : S :=
  left.x * right.x + left.y * right.y + left.z * right.z

/-- Modelled from the spec: `Cross` of the missing `R3Element`, the standard
determinant formula. -/
def Cross {S : Type} [Sub S] [Mul S] (left right : R3Element S) : R3Element S :=
  ⟨left.y * right.z - left.z * right.y,
   left.z * right.x - left.x * right.z,
   left.x * right.y - left.y * right.x⟩

end R3Element

/-- Modelled from the spec: negation of a `Bivector` of the missing
`geometry/grassmann.hpp`, component-wise. -/
instance {S Frame : Type} [Neg S] : Neg (Bivector S Frame) :=
  ⟨fun b => ⟨-b.coordinates⟩⟩

/-- Modelled from the spec: subtraction of two `Vector`s of the missing
`geometry/grassmann.hpp`, component-wise. -/
instance {S Frame : Type} [Sub S] : Sub (Vector S Frame) :=
  ⟨fun a b => ⟨a.coordinates - b.coordinates⟩⟩

/-- Modelled from the spec: `Wedge(Vector, Vector)` of the missing
`geometry/grassmann.hpp`, a Bivector, by the cross product of coordinates. -/
def Wedge {S Frame : Type} [Sub S] [Mul S] (left right : Vector S Frame) :
    Bivector S Frame :=
  ⟨R3Element.Cross left.coordinates right.coordinates⟩

/-- Modelled from the spec: `Wedge(Vector, Bivector)` of the missing
`geometry/grassmann.hpp`, a Trivector, by the dot product of coordinates. -/
def Wedge_vector_bivector {S Frame : Type} [Add S] [Mul S]
    (left : Vector S Frame) (right : Bivector S Frame) : Trivector S Frame :=
  ⟨R3Element.Dot left.coordinates right.coordinates⟩

/-- Modelled from the spec: `Wedge(Bivector, Vector)` of the missing
`geometry/grassmann.hpp`, a Trivector, by the dot product of coordinates. -/
def Wedge_bivector_vector {S Frame : Type} [Add S] [Mul S]
    (left : Bivector S Frame) (right : Vector S Frame) : Trivector S Frame :=
  ⟨R3Element.Dot left.coordinates right.coordinates⟩

/-- Modelled from the spec: `Commutator(Bivector, Bivector)` of the missing
`geometry/grassmann.hpp`, a Bivector, by the cross product of coordinates. -/
def Commutator {S Frame : Type} [Sub S] [Mul S] (left right : Bivector S Frame) :
    Bivector S Frame :=
  ⟨R3Element.Cross left.coordinates right.coordinates⟩

/-- Modelled from the spec: the left action `Vector * Bivector` of the missing
`geometry/grassmann.hpp`, a Vector, by the cross product of coordinates. -/
def Vector.mul_bivector {S Frame : Type} [Sub S] [Mul S]
    (left : Vector S Frame) (right : Bivector S Frame) : Vector S Frame :=
  ⟨R3Element.Cross left.coordinates right.coordinates⟩

/-- Modelled from the spec: the right action `Bivector * Vector` of the missing
`geometry/grassmann.hpp`, a Vector, by the cross product of coordinates. -/
def Bivector.mul_vector {S Frame : Type} [Sub S] [Mul S]
    (left : Bivector S Frame) (right : Vector S Frame) : Vector S Frame :=
  ⟨R3Element.Cross left.coordinates right.coordinates⟩

/-- Modelled from the spec: the product `Bivector * Trivector` of the missing
`geometry/grassmann.hpp`, a Vector: the coordinates of the Bivector scaled by
the coordinate of the Trivector. -/
def Bivector.mul_trivector {S Frame : Type} [Mul S]
    (left : Bivector S Frame) (right : Trivector S Frame) : Vector S Frame :=
  ⟨R3Element.scale_right left.coordinates right.coordinates⟩

/-- Modelled from the spec: the product `Trivector * Bivector` of the missing
`geometry/grassmann.hpp`, a Vector: the coordinates of the Bivector scaled by
the coordinate of the Trivector. -/
def Trivector.mul_bivector {S Frame : Type} [Mul S]
    (left : Trivector S Frame) (right : Bivector S Frame) : Vector S Frame :=
  ⟨R3Element.scale_left left.coordinates right.coordinates⟩

/-- Modelled from the spec: component-wise addition of the missing
`R3Element`. -/
instance {S : Type} [Add S] : Add (R3Element S) :=
  ⟨fun a b => ⟨a.x + b.x, a.y + b.y, a.z + b.z⟩⟩

/-- Modelled from the spec: addition of two `Bivector`s of the missing
`geometry/grassmann.hpp`, component-wise. -/
instance {S Frame : Type} [Add S] : Add (Bivector S Frame) :=
  ⟨fun a b => ⟨a.coordinates + b.coordinates⟩⟩

/-- Modelled from the spec: `InnerProduct` of two `Vector`s of the missing
`geometry/grassmann.hpp`, the dot product of the coordinates. -/
def InnerProduct {S Frame : Type} [Add S] [Mul S] (left right : Vector S Frame) : S :=
  R3Element.Dot left.coordinates right.coordinates

/-! ### Quaternions, rotations and orthogonal maps

`geometry/quaternion.hpp`, `geometry/rotation.hpp` and
`geometry/orthogonal_map.hpp` are not among the sources. -/

/-- Modelled from the spec: `Quaternion` of the missing
`geometry/quaternion.hpp`, built as `Quaternion(real_part, imaginary_part)`. -/
structure Quaternion (K : Type) where
  real_part : K
  imaginary_part : R3Element K
  deriving DecidableEq

namespace Quaternion

/-- Modelled from the spec: the product of two quaternions of the missing
`geometry/quaternion.hpp`, the Hamilton product. -/
def mul {K : Type} [Ring K] (left right : Quaternion K) : Quaternion K :=
  ⟨left.real_part * right.real_part -
      R3Element.Dot left.imaginary_part right.imaginary_part,
    R3Element.scale_left left.real_part right.imaginary_part +
      R3Element.scale_left right.real_part left.imaginary_part +
      R3Element.Cross left.imaginary_part right.imaginary_part⟩

/-- Modelled from the spec: the square of the norm of a quaternion. -/
def norm_squared {K : Type} [Ring K] (q : Quaternion K) : K :=
  q.real_part * q.real_part + R3Element.Dot q.imaginary_part q.imaginary_part

/-- Modelled from the spec: the inverse `q^-1` of a quaternion, its conjugate
divided by the square of its norm. -/
def Inverse {K : Type} [Field K] (q : Quaternion K) : Quaternion K :=
  ⟨q.real_part / q.norm_squared,
    ⟨-q.imaginary_part.x / q.norm_squared,
     -q.imaginary_part.y / q.norm_squared,
     -q.imaginary_part.z / q.norm_squared⟩⟩

end Quaternion

/-- Modelled from the spec: `Rotation<FromFrame, ToFrame>` of the missing
`geometry/rotation.hpp`, built from the quaternion that represents it. -/
structure Rotation (K : Type) (FromFrame ToFrame : Type) where
  quaternion_ : Quaternion K

/-- Modelled from the spec: the action of a `Rotation` on a coordinate triple,
`v -> q v q^-1` with `v` taken as a quaternion without real part. -/
def Rotation.applyR3 {K FromFrame ToFrame : Type} [Field K]
    (rotation : Rotation K FromFrame ToFrame) (r3_element : R3Element K) :
    R3Element K :=
  ((rotation.quaternion_.mul ⟨0, r3_element⟩).mul
    rotation.quaternion_.Inverse).imaginary_part

/-- Modelled from the spec: `OrthogonalMap<FromFrame, ToFrame>` of the missing
`geometry/orthogonal_map.hpp`, built as `OrthogonalMap(determinant, rotation)`. -/
structure OrthogonalMap (K : Type) (FromFrame ToFrame : Type) where
  determinant_ : Sign
  rotation_ : Rotation K FromFrame ToFrame

/-- Modelled from the spec: the action of an `OrthogonalMap` on a `Vector`,
the rotation of the coordinates multiplied by the determinant. -/
def OrthogonalMap.applyVector {K FromFrame ToFrame : Type} [Field K]
    (map : OrthogonalMap K FromFrame ToFrame) (vector : Vector K FromFrame) :
    Vector K ToFrame :=
  ⟨map.determinant_.smul (map.rotation_.applyR3 vector.coordinates)⟩

/-- The class `Permutation<FromFrame, ToFrame>`: its only data member is
`coordinate_permutation_`. -/
structure Permutation (FromFrame ToFrame : Type) where
  coordinate_permutation_ : CoordinatePermutation
  deriving DecidableEq

namespace Permutation

open CoordinatePermutation

/-- The member `Permutation::Determinant`: `Sign(coordinate_permutation_)`, the
enumerator compared with zero as an integer. -/
def Determinant {FromFrame ToFrame : Type} (p : Permutation FromFrame ToFrame) :
    Sign :=
  Sign.ofScalar p.coordinate_permutation_.toInt

/-- The static table `inverse` of `Permutation::Inverse`. -/
def inverse : List (CoordinatePermutation × CoordinatePermutation) :=
  [(XYZ, XYZ),
   (YZX, ZXY),
   (ZXY, YZX),
   (XZY, XZY),
   (ZYX, ZYX),
   (YXZ, YXZ)]

/-- The member `Permutation::Inverse`:
`Permutation(inverse.at(coordinate_permutation_))`; `at` fails on a key that
is not in the table. -/
def Inverse {FromFrame ToFrame : Type} (p : Permutation FromFrame ToFrame) :
    Option (Permutation ToFrame FromFrame) :=
  (inverse.lookup p.coordinate_permutation_).map Permutation.mk

/-- The static member `Permutation::Identity`: `Permutation(XYZ)`. -/
def Identity {FromFrame ToFrame : Type} : Permutation FromFrame ToFrame :=
  ⟨XYZ⟩

/-- The index read for one result coordinate in
`Permutation::operator()(R3Element)`:
`0x3 & (static_cast<int>(coordinate_permutation_) >> (coordinate * 2))`. -/
def source_index {FromFrame ToFrame : Type} (p : Permutation FromFrame ToFrame)
    (coordinate : Int) : Int :=
  Int.land 0x3 (p.coordinate_permutation_.toInt >>> (coordinate * 2))

/-- The action `Permutation::operator()(R3Element<Scalar> const&)`: the loop
over `coordinate = x, y, z` sets `result[coordinate]` to
`r3_element[source_index coordinate]`; the three iterations are written out. -/
def applyR3 {FromFrame ToFrame S : Type} (p : Permutation FromFrame ToFrame)
    (r3_element : R3Element S) : Option (R3Element S) := do
  let result_x ← r3_element.get? (p.source_index x)
  let result_y ← r3_element.get? (p.source_index y)
  let result_z ← r3_element.get? (p.source_index z)
  pure ⟨result_x, result_y, result_z⟩

/-- The action `Permutation::operator()(Vector<Scalar, FromFrame> const&)`:
`Vector<Scalar, ToFrame>((*this)(vector.coordinates()))`. -/
def applyVector {FromFrame ToFrame S : Type} (p : Permutation FromFrame ToFrame)
    (vector : Vector S FromFrame) : Option (Vector S ToFrame) :=
  (p.applyR3 vector.coordinates).map Vector.mk

/-- The action `Permutation::operator()(Bivector<Scalar, FromFrame> const&)`:
`Bivector<Scalar, ToFrame>(Determinant() * (*this)(bivector.coordinates()))`. -/
def applyBivector {FromFrame ToFrame S : Type} [Neg S]
    (p : Permutation FromFrame ToFrame) (bivector : Bivector S FromFrame) :
    Option (Bivector S ToFrame) :=
  (p.applyR3 bivector.coordinates).map
    (fun coordinates => Bivector.mk (p.Determinant.smul coordinates))

/-- The action `Permutation::operator()(Trivector<Scalar, FromFrame> const&)`:
`Trivector<Scalar, ToFrame>(Determinant() * trivector.coordinates())`. -/
def applyTrivector {FromFrame ToFrame S : Type} [Neg S]
    (p : Permutation FromFrame ToFrame) (trivector : Trivector S FromFrame) :
    Trivector S ToFrame :=
  ⟨p.Determinant.smul trivector.coordinates⟩

/-- The static table `multiplication` of `operator*`.  Each key is in
diagrammatic order: the right operand, applied first, is the first element of
the pair and the left operand is the second. -/
def multiplication :
    List ((CoordinatePermutation × CoordinatePermutation) × CoordinatePermutation) :=
  [((XYZ, XYZ), XYZ),
   ((XYZ, YZX), YZX),
   ((XYZ, ZXY), ZXY),
   ((XYZ, XZY), XZY),
   ((XYZ, ZYX), ZYX),
   ((XYZ, YXZ), YXZ),

   ((YZX, XYZ), YZX),
   ((YZX, YZX), ZXY),
   ((YZX, ZXY), XYZ),
   ((YZX, XZY), YXZ),
   ((YZX, ZYX), XZY),
   ((YZX, YXZ), ZYX),

   ((ZXY, XYZ), ZXY),
   ((ZXY, YZX), XYZ),
   ((ZXY, ZXY), YZX),
   ((ZXY, XZY), ZYX),
   ((ZXY, ZYX), YXZ),
   ((ZXY, YXZ), XZY),

   ((XZY, XYZ), XZY),
   ((XZY, YZX), ZYX),
   ((XZY, ZXY), YXZ),
   ((XZY, XZY), XYZ),
   ((XZY, ZYX), YZX),
   ((XZY, YXZ), ZXY),

   ((ZYX, XYZ), ZYX),
   ((ZYX, YZX), YXZ),
   ((ZYX, ZXY), XZY),
   ((ZYX, XZY), ZXY),
   ((ZYX, ZYX), XYZ),
   ((ZYX, YXZ), YZX),

   ((YXZ, XYZ), YXZ),
   ((YXZ, YZX), XZY),
   ((YXZ, ZXY), ZYX),
   ((YXZ, XZY), YZX),
   ((YXZ, ZYX), ZXY),
   ((YXZ, YXZ), XYZ)]

/-- The composition `operator*(left, right)` of a
`Permutation<ThroughFrame, ToFrame>` with a `Permutation<FromFrame, ThroughFrame>`:
`multiplication.at({right.coordinate_permutation_, left.coordinate_permutation_})`. -/
def mul {FromFrame ThroughFrame ToFrame : Type}
    (left : Permutation ThroughFrame ToFrame)
    (right : Permutation FromFrame ThroughFrame) :
    Option (Permutation FromFrame ToFrame) :=
  (multiplication.lookup
    (right.coordinate_permutation_, left.coordinate_permutation_)).map
    Permutation.mk

/-- The static table `quaternion` of `Permutation::Forget`, with
`sqrt_half = quantities::Sqrt(0.5)` handed in. -/
def quaternion {K : Type} [Field K] (sqrt_half : K) :
    List (CoordinatePermutation × Quaternion K) :=
  [(XYZ, ⟨1, ⟨0, 0, 0⟩⟩),
   (YZX, ⟨0.5, ⟨-0.5, -0.5, -0.5⟩⟩),
   (ZXY, ⟨0.5, ⟨0.5, 0.5, 0.5⟩⟩),
   (XZY, ⟨0, ⟨0, -sqrt_half, sqrt_half⟩⟩),
   (ZYX, ⟨0, ⟨-sqrt_half, 0, sqrt_half⟩⟩),
   (YXZ, ⟨0, ⟨-sqrt_half, sqrt_half, 0⟩⟩)]

/-- The member `Permutation::Forget`:
`OrthogonalMap(Determinant(), Rotation(quaternion.at(coordinate_permutation_)))`.
The square root `quantities::Sqrt`, of the missing
`quantities/elementary_functions.hpp`, is a parameter. -/
def Forget {K FromFrame ToFrame : Type} [Field K] (Sqrt : K → K)
    (p : Permutation FromFrame ToFrame) :
    Option (OrthogonalMap K FromFrame ToFrame) :=
  ((quaternion (Sqrt 0.5)).lookup p.coordinate_permutation_).map fun q =>
    ⟨p.Determinant, ⟨q⟩⟩

end Permutation

end geometry

end principia

/-! ## Чебышёв series (`numerics/чебышёв_series_body.hpp`) -/

namespace principia

namespace numerics

/-- The ways a call can go wrong: a glog `CHECK` that aborts the program, an
unchecked `operator[]` outside its container, and the `std::length_error` that
`std::vector::reserve` throws for a size beyond `max_size()`. -/
inductive Fault where
  | check_failed
  | out_of_bounds
  | length_error
  deriving DecidableEq

/-- The class `ЧебышёвSeries<Scalar>` with its six data members.  Instants,
durations and scalars are all elements of one ordered field `K`, in which the
arithmetic is exact; `coefficients_` is the `std::vector` and `degree_` the
`int`. -/
structure ChebyshevSeries (K : Type) where
  coefficients_ : List K
  degree_ : Int
  t_min_ : K
  t_max_ : K
  t_mean_ : K
  two_over_duration_ : K
  deriving DecidableEq

namespace ChebyshevSeries

variable {K : Type} [LinearOrderedField K]

/-- The constructor
`ЧебышёвSeries(coefficients, t_min, t_max)`: `degree_` is
`static_cast<int>(coefficients_.size()) - 1` (the size of the vector is taken
to fit an `int`), then `CHECK_LE(0, degree_)` and `CHECK_LT(t_min_, t_max_)`,
then the two cached values are computed from `duration = t_max_ - t_min_`. -/
def construct (coefficients : List K) (t_min t_max : K) :
    Except Fault (ChebyshevSeries K) :=
  let degree_ : Int := (coefficients.length : Int) - 1
  if ¬ (0 ≤ degree_) then .error .check_failed
  else if ¬ (t_min < t_max) then .error .check_failed
  else
    let duration : K := t_max - t_min
    .ok { coefficients_ := coefficients
          degree_ := degree_
          t_min_ := t_min
          t_max_ := t_max
          t_mean_ := t_min + 0.5 * duration
          two_over_duration_ := 2 / duration }

/-- The loop `for (int k = degree_; k >= 1; --k)` of `Evaluate`, with `k` the
number of iterations still to run: each one reads `coefficients_[k]`, sets
`b_k = coefficients_[k] + two_scaled_t * b_kplus1 - b_kplus2` and shifts the
pair.  The result is the final `(b_kplus2, b_kplus1)`. -/
def Evaluate_loop (coefficients_ : List K) (two_scaled_t : K) :
    Nat → K → K → Except Fault (K × K)
  | 0, b_kplus2, b_kplus1 => .ok (b_kplus2, b_kplus1)
  | k + 1, b_kplus2, b_kplus1 =>
    match coefficients_[k + 1]? with
    | none => .error .out_of_bounds
    | some c =>
      let b_k : K := c + two_scaled_t * b_kplus1 - b_kplus2
      Evaluate_loop coefficients_ two_scaled_t k b_kplus1 b_k

/-- The member `ЧебышёвSeries::Evaluate(t)`: normalize the time, check it
against the band `[-1.1, 1.1]`, run the loop from `degree_` down to 1 starting
from `b_kplus2 = b_kplus1 = 0` (no iteration when `degree_ < 1`), and return
`coefficients_[0] + scaled_t * b_kplus1 - b_kplus2`. -/
def Evaluate (series : ChebyshevSeries K) (t : K) : Except Fault K :=
  let scaled_t : K := (t - series.t_mean_) * series.two_over_duration_
  let two_scaled_t : K := scaled_t + scaled_t
  if ¬ (scaled_t ≤ 1.1) then .error .check_failed
  else if ¬ (scaled_t ≥ -1.1) then .error .check_failed
  else
    match Evaluate_loop series.coefficients_ two_scaled_t series.degree_.toNat 0 0 with
    | .error fault => .error fault
    | .ok (b_kplus2, b_kplus1) =>
      match series.coefficients_[0]? with
      | none => .error .out_of_bounds
      | some c0 => .ok (c0 + scaled_t * b_kplus1 - b_kplus2)

/-- The `operator==` of `std::vector`: equal sizes and equal elements,
position by position. -/
def vector_eq (left right : List K) : Bool :=
  decide (left.length = right.length) &&
    (List.zipWith (fun a b => decide (a = b)) left right).all id

/-- The member `ЧебышёвSeries::operator==`:
`coefficients_ == right.coefficients_ && t_min_ == right.t_min_ &&
t_max_ == right.t_max_`. -/
def eq (self right : ChebyshevSeries K) : Bool :=
  vector_eq self.coefficients_ right.coefficients_ &&
    decide (self.t_min_ = right.t_min_) &&
    decide (self.t_max_ = right.t_max_)

/-- The member `ЧебышёвSeries::operator!=`: `!operator==(right)`. -/
def ne (self right : ChebyshevSeries K) : Bool :=
  !(eq self right)

/-- The collaborators of the series' serialization, none of them among the
sources and all taken as parameters: the empty sub-messages that
`add_coefficient()` and a new message create, the coefficient serializer
`QuantityOrDoubleSerializer` and the serializer of `Instant`, each writing
into the sub-message it is handed. -/
structure Serializers (K Coefficient Point : Type) where
  Coefficient_empty : Coefficient
  Point_empty : Point
  Serializer_WriteToMessage : K → Coefficient → Coefficient
  Serializer_ReadFromMessage : Coefficient → K
  Instant_WriteToMessage : K → Point → Point
  Instant_ReadFromMessage : Point → K

/-- A newly created `serialization::ЧебышёвSeries` message: no coefficient, and
empty `t_min` and `t_max`. -/
def Serializers.empty_message {Coefficient Point : Type}
    (serializers : Serializers K Coefficient Point) :
    serialization.ChebyshevSeries Coefficient Point :=
  { coefficient := []
    t_min := serializers.Point_empty
    t_max := serializers.Point_empty }

/-- The member `ЧебышёвSeries::WriteToMessage(message)`: each coefficient in
turn is written into a new sub-message appended by `add_coefficient()`, then
`t_min_` and `t_max_` are written into `mutable_t_min()` and
`mutable_t_max()`.  The message is passed in and out. -/
def WriteToMessage {Coefficient Point : Type}
    (serializers : Serializers K Coefficient Point) (series : ChebyshevSeries K)
    (message : serialization.ChebyshevSeries Coefficient Point) :
    serialization.ChebyshevSeries Coefficient Point :=
  let written := series.coefficients_.foldl
    (fun (m : serialization.ChebyshevSeries Coefficient Point) coefficient =>
      { m with
        coefficient := m.coefficient ++
          [serializers.Serializer_WriteToMessage coefficient
            serializers.Coefficient_empty] })
    message
  { written with
    t_min := serializers.Instant_WriteToMessage series.t_min_ written.t_min
    t_max := serializers.Instant_WriteToMessage series.t_max_ written.t_max }

/-- The static member `ЧебышёвSeries::ReadFromMessage(message)`: the
coefficients are read one by one and pushed back onto a vector, and the series
is constructed from them and the two instants read from `t_min` and `t_max`. -/
def ReadFromMessage {Coefficient Point : Type}
    (serializers : Serializers K Coefficient Point)
    (message : serialization.ChebyshevSeries Coefficient Point) :
    Except Fault (ChebyshevSeries K) :=
  let coefficients : List K := message.coefficient.foldl
    (fun coefficients coefficient =>
      coefficients ++ [serializers.Serializer_ReadFromMessage coefficient])
    []
  construct coefficients
    (serializers.Instant_ReadFromMessage message.t_min)
    (serializers.Instant_ReadFromMessage message.t_max)

/-- The constants `newhall_c_matrix_degree_N_divisions_8_w04` of
`numerics/newhall.mathematica.cpp`, which is not among the sources: taken as
parameters, each a matrix given by its rows. -/
structure NewhallMatrices (K : Type) where
  newhall_c_matrix_degree_3_divisions_8_w04 : List (List K)
  newhall_c_matrix_degree_4_divisions_8_w04 : List (List K)
  newhall_c_matrix_degree_5_divisions_8_w04 : List (List K)
  newhall_c_matrix_degree_6_divisions_8_w04 : List (List K)
  newhall_c_matrix_degree_7_divisions_8_w04 : List (List K)
  newhall_c_matrix_degree_8_divisions_8_w04 : List (List K)
  newhall_c_matrix_degree_9_divisions_8_w04 : List (List K)
  newhall_c_matrix_degree_10_divisions_8_w04 : List (List K)
  newhall_c_matrix_degree_11_divisions_8_w04 : List (List K)
  newhall_c_matrix_degree_12_divisions_8_w04 : List (List K)
  newhall_c_matrix_degree_13_divisions_8_w04 : List (List K)
  newhall_c_matrix_degree_14_divisions_8_w04 : List (List K)
  newhall_c_matrix_degree_15_divisions_8_w04 : List (List K)
  newhall_c_matrix_degree_16_divisions_8_w04 : List (List K)
  newhall_c_matrix_degree_17_divisions_8_w04 : List (List K)

/-- Modelled from the spec: the product of a `FixedMatrix` with a
`FixedVector` of the missing `numerics/arrays.hpp`, one matrix-vector product:
one entry per row of the matrix, the sum of the products of the row's entries
with the vector's. -/
def FixedMatrix_mul (matrix : List (List K)) (vector : List K) : List K :=
  matrix.map fun row => (List.zipWith (fun a b => a * b) row vector).sum

/-- The constant `kDivisions` of `NewhallApproximation`. -/
def kDivisions : Int := 8

/-- The loop
`for (int i = 0, j = 2 * kDivisions; i < kDivisions + 1 && j >= 0; ++i, j -= 2)`
of `NewhallApproximation`, entered with the current `i`, `j` and `pv`: each
iteration sets `pv[j] = p[i]` and `pv[j + 1] = v[i] * duration_over_two`. -/
def NewhallApproximation_loop (p v : List K) (duration_over_two : K) (i : Nat)
    (j : Int) (pv : List K) : Except Fault (List K) :=
  if (i : Int) < kDivisions + 1 ∧ j ≥ 0 then
    match p[i]?, v[i]? with
    | some p_i, some v_i =>
      if j.toNat + 1 < pv.length then
        NewhallApproximation_loop p v duration_over_two (i + 1) (j - 2)
          ((pv.set j.toNat p_i).set (j.toNat + 1) (v_i * duration_over_two))
      else .error .out_of_bounds
    | _, _ => .error .out_of_bounds
  else .ok pv
termination_by 9 - i
decreasing_by
  simp only [kDivisions] at *
  omega

/-- The static member
`ЧебышёвSeries::NewhallApproximation(degree, p, v, t_min, t_max)`: the two
`CHECK_EQ` on the sizes of `p` and `v`, the loop that fills `pv` (which starts
as 18 zeros), `coefficients.reserve(degree)` (which throws on a negative
`degree`, converted to an unsigned size), the `switch` on `degree` with its
empty `default`, `CHECK_EQ(degree + 1, coefficients.size())` and the
construction of the series. -/
def NewhallApproximation (matrices : NewhallMatrices K) (degree : Int)
    (p v : List K) (t_min t_max : K) : Except Fault (ChebyshevSeries K) :=
  if ¬ (kDivisions + 1 = (p.length : Int)) then .error .check_failed
  else if ¬ (kDivisions + 1 = (v.length : Int)) then .error .check_failed
  else
    let duration_over_two : K := 0.5 * (t_max - t_min)
    match NewhallApproximation_loop p v duration_over_two 0 (2 * kDivisions)
        (List.replicate (2 * kDivisions + 2).toNat 0) with
    | .error fault => .error fault
    | .ok pv =>
      if degree < 0 then .error .length_error
      else
        let coefficients : List K :=
          if degree = 3 then
            FixedMatrix_mul matrices.newhall_c_matrix_degree_3_divisions_8_w04 pv
          else if degree = 4 then
            FixedMatrix_mul matrices.newhall_c_matrix_degree_4_divisions_8_w04 pv
          else if degree = 5 then
            FixedMatrix_mul matrices.newhall_c_matrix_degree_5_divisions_8_w04 pv
          else if degree = 6 then
            FixedMatrix_mul matrices.newhall_c_matrix_degree_6_divisions_8_w04 pv
          else if degree = 7 then
            FixedMatrix_mul matrices.newhall_c_matrix_degree_7_divisions_8_w04 pv
          else if degree = 8 then
            FixedMatrix_mul matrices.newhall_c_matrix_degree_8_divisions_8_w04 pv
          else if degree = 9 then
            FixedMatrix_mul matrices.newhall_c_matrix_degree_9_divisions_8_w04 pv
          else if degree = 10 then
            FixedMatrix_mul matrices.newhall_c_matrix_degree_10_divisions_8_w04 pv
          else if degree = 11 then
            FixedMatrix_mul matrices.newhall_c_matrix_degree_11_divisions_8_w04 pv
          else if degree = 12 then
            FixedMatrix_mul matrices.newhall_c_matrix_degree_12_divisions_8_w04 pv
          else if degree = 13 then
            FixedMatrix_mul matrices.newhall_c_matrix_degree_13_divisions_8_w04 pv
          else if degree = 14 then
            FixedMatrix_mul matrices.newhall_c_matrix_degree_14_divisions_8_w04 pv
          else if degree = 15 then
            FixedMatrix_mul matrices.newhall_c_matrix_degree_15_divisions_8_w04 pv
          else if degree = 16 then
            FixedMatrix_mul matrices.newhall_c_matrix_degree_16_divisions_8_w04 pv
          else if degree = 17 then
            FixedMatrix_mul matrices.newhall_c_matrix_degree_17_divisions_8_w04 pv
          else []
        if ¬ (degree + 1 = (coefficients.length : Int)) then .error .check_failed
        else construct coefficients t_min t_max

/-- The matrix that the `switch (degree)` of `NewhallApproximation` picks:
the constant named in `case degree:`, and none in the `default:` case. -/
def newhall_c_matrix (matrices : NewhallMatrices K) (degree : Int) :
    Option (List (List K)) :=
  if degree = 3 then some matrices.newhall_c_matrix_degree_3_divisions_8_w04
  else if degree = 4 then some matrices.newhall_c_matrix_degree_4_divisions_8_w04
  else if degree = 5 then some matrices.newhall_c_matrix_degree_5_divisions_8_w04
  else if degree = 6 then some matrices.newhall_c_matrix_degree_6_divisions_8_w04
  else if degree = 7 then some matrices.newhall_c_matrix_degree_7_divisions_8_w04
  else if degree = 8 then some matrices.newhall_c_matrix_degree_8_divisions_8_w04
  else if degree = 9 then some matrices.newhall_c_matrix_degree_9_divisions_8_w04
  else if degree = 10 then some matrices.newhall_c_matrix_degree_10_divisions_8_w04
  else if degree = 11 then some matrices.newhall_c_matrix_degree_11_divisions_8_w04
  else if degree = 12 then some matrices.newhall_c_matrix_degree_12_divisions_8_w04
  else if degree = 13 then some matrices.newhall_c_matrix_degree_13_divisions_8_w04
  else if degree = 14 then some matrices.newhall_c_matrix_degree_14_divisions_8_w04
  else if degree = 15 then some matrices.newhall_c_matrix_degree_15_divisions_8_w04
  else if degree = 16 then some matrices.newhall_c_matrix_degree_16_divisions_8_w04
  else if degree = 17 then some matrices.newhall_c_matrix_degree_17_divisions_8_w04
  else none

/-- The loop of `NewhallApproximation` once more, keeping next to `pv` the
list of the indices of `pv` written so far, in the order of the writes: each
iteration writes `pv[j]` and then `pv[j + 1]`. -/
def NewhallApproximation_loop_writes (p v : List K) (duration_over_two : K)
    (i : Nat) (j : Int) (pv : List K) (writes : List Int) :
    Except Fault (List K × List Int) :=
  if (i : Int) < kDivisions + 1 ∧ j ≥ 0 then
    match p[i]?, v[i]? with
    | some p_i, some v_i =>
      if j.toNat + 1 < pv.length then
        NewhallApproximation_loop_writes p v duration_over_two (i + 1) (j - 2)
          ((pv.set j.toNat p_i).set (j.toNat + 1) (v_i * duration_over_two))
          (writes ++ [j, j + 1])
      else .error .out_of_bounds
    | _, _ => .error .out_of_bounds
  else .ok (pv, writes)
termination_by 9 - i
decreasing_by
  simp only [kDivisions] at *
  omega

/-- The Chebyshev polynomials of the first kind at `s`, as the specification
defines them: `T_0 = 1`, `T_1 = s`, `T_{k+1} = 2 s T_k - T_{k-1}`. -/
def ChebyshevT (s : K) : Nat → K
  | 0 => 1
  | 1 => s
  | k + 2 => 2 * s * ChebyshevT s (k + 1) - ChebyshevT s k

/-- The Chebyshev sum `c_0 T_0(s) + ... + c_d T_d(s)` of a coefficient list, as
the specification writes it. -/
def chebyshev_sum (coefficients : List K) (s : K) : K :=
  ∑ k : Fin coefficients.length, coefficients.get k * ChebyshevT s k

end ChebyshevSeries

end numerics

end principia

/-! ## N-body system (`physics/n_body_system.hpp`)

Only the declaration of `NBodySystem` is among the sources; its body
(`physics/n_body_system_body.hpp`), the trajectories, the bodies and the
symplectic integrator are not. -/

namespace principia

namespace physics

open numerics

/-- Modelled from the spec: the body of the missing `physics/body.hpp`, with
its gravitational parameter, an opaque scalar, and whether it is massless;
`name` tells the bodies apart. -/
structure Body (K : Type) where
  name : Nat
  gravitational_parameter : K
  is_massless : Bool

/-- Modelled from the spec: one state of a trajectory, a time with the
position and the velocity at that time. -/
structure State (K V : Type) where
  time : K
  position : V
  velocity : V

/-- Modelled from the spec: the `Trajectory` of the missing
`physics/trajectory.hpp`, the append-only, time-ordered sequence of states of
one body: the state it starts from and the states appended since. -/
structure Trajectory (K V : Type) where
  body : Body K
  first : State K V
  appended : List (State K V)

/-- Modelled from the spec: the last state of a trajectory, whose time is
`last_time()`. -/
def Trajectory.last {K V : Type} (trajectory : Trajectory K V) : State K V :=
  trajectory.appended.getLastD trajectory.first

/-- Modelled from the spec: an initialized `SymplecticIntegrator` of the
missing `integrators/symplectic_integrator.hpp`, a coefficient scheme: for
each stage the coefficient of the force half-step and the coefficient of the
kinematic half-step. -/
structure SymplecticIntegrator (K : Type) where
  stages : List (K × K)

/-- Modelled from the spec: what the integration carries for one body, its
trajectory with its current position and velocity. -/
structure BodyState (K V : Type) where
  trajectory : Trajectory K V
  position : V
  velocity : V

namespace NBodySystem

variable {K V : Type} [LinearOrderedField K] [FloorRing K] [AddCommGroup V]
  [Module K V]

/-- Modelled from the spec: whether a body state is that of a massive body. -/
def is_massive (state : BodyState K V) : Bool :=
  !state.trajectory.body.is_massless

/-- Modelled from the spec: the gravitational acceleration of one body, the sum
over the massive bodies other than itself of the pairwise accelerations
`μ / r^3 * (q' - q)`.  The inverse cube of the distance, which takes a square
root, is the parameter `inverse_cube`.  Massless bodies are no source. -/
def ComputeGravitationalAcceleration (inverse_cube : V → K)
    (massive : List (BodyState K V)) (target : BodyState K V) : V :=
  ((massive.filter fun source =>
      decide (source.trajectory.body.name ≠ target.trajectory.body.name)).map
    fun source =>
      (source.trajectory.body.gravitational_parameter *
        inverse_cube (source.position - target.position)) •
          (source.position - target.position)).sum

/-- Modelled from the spec: the force half-step with coefficient `b`: for every
body, massive or massless, the velocity advances by the acceleration that the
massive bodies cause. -/
def force_half_step (inverse_cube : V → K) (Δt b : K)
    (states : List (BodyState K V)) : List (BodyState K V) :=
  states.map fun state =>
    { state with
      velocity := state.velocity +
        (b * Δt) • ComputeGravitationalAcceleration inverse_cube
          (states.filter is_massive) state }

/-- Modelled from the spec: the kinematic half-step with coefficient `a`: the
position of every body advances from its current velocity. -/
def kinematic_half_step (Δt a : K) (states : List (BodyState K V)) :
    List (BodyState K V) :=
  states.map fun state =>
    { state with position := state.position + (a * Δt) • state.velocity }

/-- Modelled from the spec: one step of size `Δt`, the half-steps alternating
along the coefficient sequence of the integrator. -/
def step (inverse_cube : V → K) (integrator : SymplecticIntegrator K) (Δt : K)
    (states : List (BodyState K V)) : List (BodyState K V) :=
  integrator.stages.foldl
    (fun current stage =>
      kinematic_half_step Δt stage.2
        (force_half_step inverse_cube Δt stage.1 current))
    states

/-- Modelled from the spec: retaining a state, which appends the current
position and velocity of every body to its trajectory at the given time. -/
def append_states (time : K) (states : List (BodyState K V)) :
    List (BodyState K V) :=
  states.map fun state =>
    { state with
      trajectory :=
        { state.trajectory with
          appended := state.trajectory.appended ++
            [⟨time, state.position, state.velocity⟩] } }

/-- Modelled from the spec: the steps of `Integrate`, `remaining` of them to go
after `done`: each advances every body by one step and retains every
`sampling_period`-th state. -/
def Integrate_steps (inverse_cube : V → K) (integrator : SymplecticIntegrator K)
    (t_initial Δt : K) (sampling_period : Int) :
    Nat → Nat → List (BodyState K V) → List (BodyState K V)
  | 0, _, states => states
  | remaining + 1, done, states =>
    let advanced := step inverse_cube integrator Δt states
    let retained :=
      if ((done + 1 : Nat) : Int) % sampling_period = 0 then
        append_states (t_initial + ((done + 1 : Nat) : K) * Δt) advanced
      else advanced
    Integrate_steps inverse_cube integrator t_initial Δt sampling_period remaining
      (done + 1) retained

/-- Modelled from the spec: `NBodySystem::Integrate(integrator, tmax, Δt,
sampling_period, trajectories)`.  It is fatal unless all the trajectories have
the same `last_time()` and are for distinct bodies; then it takes the largest
number `k` of steps with `t_initial + k Δt <= tmax` and returns the extended
trajectories. -/
def Integrate (inverse_cube : V → K) (integrator : SymplecticIntegrator K)
    (tmax Δt : K) (sampling_period : Int) (trajectories : List (Trajectory K V)) :
    Except Fault (List (Trajectory K V)) :=
  match trajectories with
  | [] => .ok []
  | first :: _ =>
    if ¬ (∀ trajectory ∈ trajectories, trajectory.last.time = first.last.time) then
      .error .check_failed
    else if ¬ (trajectories.map fun trajectory => trajectory.body.name).Nodup then
      .error .check_failed
    else
      let t_initial : K := first.last.time
      let steps : Nat := ⌊(tmax - t_initial) / Δt⌋₊
      .ok
        ((Integrate_steps inverse_cube integrator t_initial Δt sampling_period steps 0
          (trajectories.map fun trajectory =>
            ⟨trajectory, trajectory.last.position, trajectory.last.velocity⟩)).map
          fun state => state.trajectory)

end NBodySystem

end physics

end principia

/-! ## Interchange conversions (`ksp_plugin/interface_body.hpp`) -/

namespace principia

namespace interface

/-- The `double` of the platform, an IEEE 754 binary64 value, given by its sign
bit, its 11-bit biased exponent and its 52-bit fraction. -/
structure Double where
  sign : Bool
  exponent : Fin 2048
  fraction : Fin 4503599627370496
  deriving DecidableEq

namespace Double

/-- The library function `std::isnan`: the exponent is all ones and the
fraction is not zero. -/
def isnan (d : Double) : Bool :=
  decide (d.exponent = 2047) && decide (d.fraction ≠ 0)

/-- Whether the value is a zero, of either sign. -/
def is_zero (d : Double) : Bool :=
  decide (d.exponent = 0) && decide (d.fraction = 0)

/-- The built-in `left == right` on `double`: false when either operand is a
NaN, true on the two zeros whatever their signs, and otherwise true exactly
when the two operands are the same value. -/
def eq (left right : Double) : Bool :=
  !left.isnan && !right.isnan &&
    (decide (left = right) || (left.is_zero && right.is_zero))

end Double

/-- The function `NaNIndependentEq(left, right)`:
`(left == right) || (std::isnan(left) && std::isnan(right))`. -/
def NaNIndependentEq (left right : Double) : Bool :=
  Double.eq left right || (left.isnan && right.isnan)

/-- Modelled from the spec: the interchange struct `XYZ` of the missing
`ksp_plugin/interface.hpp`, with the three `double` members `x`, `y` and `z`
that `interface_body.hpp` reads. -/
structure XYZ where
  x : Double
  y : Double
  z : Double
  deriving DecidableEq

/-- The comparison `operator==(XYZ const& left, XYZ const& right)`:
`NaNIndependentEq` on `x`, on `y` and on `z`. -/
def XYZ.eq (left right : XYZ) : Bool :=
  NaNIndependentEq left.x right.x &&
    NaNIndependentEq left.y right.y &&
    NaNIndependentEq left.z right.z

/-- The conversion `FromXYZ(xyz)`: `{xyz.x, xyz.y, xyz.z}`. -/
def FromXYZ (xyz : XYZ) : geometry.R3Element Double :=
  ⟨xyz.x, xyz.y, xyz.z⟩

/-- The conversion `ToXYZ(r3_element)`:
`{r3_element.x, r3_element.y, r3_element.z}`. -/
def ToXYZ (r3_element : geometry.R3Element Double) : XYZ :=
  ⟨r3_element.x, r3_element.y, r3_element.z⟩

end interface

end principia

/-! ## Properties of the permutations -/

namespace principia

namespace geometry

open CoordinatePermutation

/-- Bitwise difference with the mask 3 keeps the complement of the two low
bits. -/
theorem ldiff_three (k : Nat) : Nat.ldiff 3 k = 3 - k % 4 := by
  apply Nat.eq_of_testBit_eq
  intro i
  rw [Nat.testBit_ldiff]
  have h4 : k % 4 < 4 := Nat.mod_lt _ (by norm_num)
  have hpow : ∀ j : Nat, 4 ≤ 2 ^ (j + 1 + 1) := by
    intro j
    have h1 : 2 ^ (j + 1 + 1) = 4 * 2 ^ j := by ring
    have h2 := Nat.one_le_two_pow (n := j)
    omega
  rcases i with _ | _ | i
  · simp only [Nat.testBit_zero]
    have h : k % 2 = (k % 4) % 2 := by omega
    rw [h]
    interval_cases (k % 4) <;> simp
  · simp only [Nat.testBit_to_div_mod]
    have h : k / 2 ^ (0 + 1) % 2 = (k % 4) / 2 := by omega
    rw [h]
    interval_cases (k % 4) <;> simp
  · have h3 : Nat.testBit 3 (i + 1 + 1) = false :=
      Nat.testBit_lt_two_pow (lt_of_lt_of_le (by norm_num) (hpow i))
    have h3r : Nat.testBit (3 - k % 4) (i + 1 + 1) = false :=
      Nat.testBit_lt_two_pow (lt_of_lt_of_le (by omega) (hpow i))
    rw [h3, h3r]
    simp

/-- Masking a two's-complement integer with `0x3` gives its residue modulo 4. -/
theorem land_three (m : Int) : Int.land 3 m = m % 4 := by
  cases m with
  | ofNat k =>
    show ((Nat.land 3 k : Nat) : Int) = _
    have h1 := Nat.and_pow_two_sub_one_eq_mod k 2
    have h2 : Nat.land 3 k = k % 4 := by
      have h : 3 &&& k = k &&& 3 := Nat.land_comm 3 k
      have h5 : Nat.land 3 k = 3 &&& k := rfl
      rw [h5, h]
      simpa using h1
    rw [h2]
    simp
  | negSucc k =>
    show ((Nat.ldiff 3 k : Nat) : Int) = _
    rw [ldiff_three]
    have h4 : k % 4 < 4 := Nat.mod_lt _ (by norm_num)
    have h5 : Int.negSucc k = -((k : Int) + 1) := rfl
    rw [h5]
    omega

/-- The three source indices of each enumerator are the coordinates its name
spells. -/
theorem source_index_table {FromFrame ToFrame : Type}
    (p : Permutation FromFrame ToFrame) :
    (p.source_index x, p.source_index y, p.source_index z) =
      match p.coordinate_permutation_ with
      | XYZ => (0, 1, 2)
      | YZX => (1, 2, 0)
      | ZXY => (2, 0, 1)
      | XZY => (0, 2, 1)
      | ZYX => (2, 1, 0)
      | YXZ => (1, 0, 2) := by
  rcases p with ⟨c⟩
  cases c <;> simp only [Permutation.source_index, land_three] <;> decide

/-- The action on a coordinate triple, enumerator by enumerator: every read is
on an axis, and the result lists the input coordinates in the order the
enumerator's name spells. -/
theorem applyR3_table {FromFrame ToFrame S : Type}
    (p : Permutation FromFrame ToFrame) (v : R3Element S) :
    p.applyR3 v = some
      (match p.coordinate_permutation_ with
       | XYZ => ⟨v.x, v.y, v.z⟩
       | YZX => ⟨v.y, v.z, v.x⟩
       | ZXY => ⟨v.z, v.x, v.y⟩
       | XZY => ⟨v.x, v.z, v.y⟩
       | ZYX => ⟨v.z, v.y, v.x⟩
       | YXZ => ⟨v.y, v.x, v.z⟩) := by
  have h := source_index_table p
  rcases p with ⟨c⟩
  cases c <;> simp only [Prod.mk.injEq] at h <;> obtain ⟨h1, h2, h3⟩ := h <;>
    simp [Permutation.applyR3, h1, h2, h3, R3Element.get?]

/-- The determinant is negative exactly on the three enumerators that carry
the sign bit. -/
theorem Determinant_table {FromFrame ToFrame : Type}
    (p : Permutation FromFrame ToFrame) :
    p.Determinant =
      match p.coordinate_permutation_ with
      | XYZ => ⟨false⟩
      | YZX => ⟨false⟩
      | ZXY => ⟨false⟩
      | XZY => ⟨true⟩
      | ZYX => ⟨true⟩
      | YXZ => ⟨true⟩ := by
  rcases p with ⟨c⟩
  cases c <;> rfl

/-- C2: for each of the six permutations `p`, both `p * p.Inverse()` and
`p.Inverse() * p`, computed with the inverse table and the composition table,
are the identity permutation `XYZ`. -/
theorem C2_inverse_composes_to_identity {FromFrame ToFrame : Type}
    (p : Permutation FromFrame ToFrame) :
    (p.Inverse.bind fun q => Permutation.mul p q) =
        some (Permutation.Identity : Permutation ToFrame ToFrame) ∧
      (p.Inverse.bind fun q => Permutation.mul q p) =
        some (Permutation.Identity : Permutation FromFrame FromFrame) ∧
      (Permutation.Identity : Permutation ToFrame ToFrame).coordinate_permutation_ =
        XYZ := by
  rcases p with ⟨c⟩
  cases c <;> exact ⟨rfl, rfl, rfl⟩

/-- C3: composition is associative: for all 216 triples `p`, `q`, `r` the two
bracketings `(p * q) * r` and `p * (q * r)` are both found in the composition
table and are the same element. -/
theorem C3_composition_associative {A B C D : Type}
    (p : Permutation C D) (q : Permutation B C) (r : Permutation A B) :
    ∃ s : Permutation A D,
      ((Permutation.mul p q).bind fun pq => Permutation.mul pq r) = some s ∧
      ((Permutation.mul q r).bind fun qr => Permutation.mul p qr) = some s := by
  rcases p with ⟨a⟩
  rcases q with ⟨b⟩
  rcases r with ⟨c⟩
  cases a <;> cases b <;> cases c <;> exact ⟨_, rfl, rfl⟩

/-- C4: the composition table agrees with the action on coordinate triples, the
right operand applied first: `(left * right)(v) = left(right(v))` for all
permutations `left`, `right` and every triple `v`, no table lookup or
coordinate read failing, where the action reads
`v[0x3 & (code >> (2 * i))]` for result coordinate `i`. -/
theorem C4_composition_agrees_with_action {FromFrame ThroughFrame ToFrame S : Type}
    (left : Permutation ThroughFrame ToFrame)
    (right : Permutation FromFrame ThroughFrame) (v : R3Element S) :
    ∃ w : R3Element S,
      ((Permutation.mul left right).bind fun lr => lr.applyR3 v) = some w ∧
      ((right.applyR3 v).bind fun rv => left.applyR3 rv) = some w := by
  have hmul : ∃ lr, Permutation.mul left right = some lr ∧
      lr.applyR3 v = (right.applyR3 v).bind fun rv => left.applyR3 rv := by
    rcases left with ⟨a⟩
    rcases right with ⟨b⟩
    cases a <;> cases b <;> exact ⟨_, rfl, by simp [applyR3_table]⟩
  obtain ⟨lr, h1, h2⟩ := hmul
  have h3 := applyR3_table lr v
  exact ⟨_, by rw [h1, Option.some_bind]; exact h3, by rw [← h2]; exact h3⟩

/-- C5: the determinant is multiplicative over composition:
`(left * right).Determinant()` is `left.Determinant() * right.Determinant()`,
where the determinant, the sign of the enumerator, is positive on the even
elements `XYZ`, `YZX`, `ZXY` and negative on the odd elements `XZY`, `ZYX`,
`YXZ`. -/
theorem C5_determinant_multiplicative {FromFrame ThroughFrame ToFrame : Type}
    (left : Permutation ThroughFrame ToFrame)
    (right : Permutation FromFrame ThroughFrame) :
    (Permutation.mul left right).map Permutation.Determinant =
        some (Sign.mul left.Determinant right.Determinant) ∧
      (left.Determinant.Negative =
        decide (left.coordinate_permutation_ ∈ [XZY, ZYX, YXZ])) ∧
      (left.Determinant.Positive =
        decide (left.coordinate_permutation_ ∈ [XYZ, YZX, ZXY])) := by
  rcases left with ⟨a⟩
  rcases right with ⟨b⟩
  cases a <;> cases b <;> exact ⟨rfl, rfl, rfl⟩

/-- C6: the transform rule of a permutation `p`.  The coordinates of the image
of a Vector are `p`'s coordinate permutation of the input coordinates; those
of the image of a Bivector are that coordinate permutation, negated exactly
when `p` is one of the odd elements `XZY`, `ZYX`, `YXZ`; the coordinate of the
image of a Trivector is the input coordinate, negated exactly when `p` is odd;
and `p.Determinant()` is negative exactly when `p` is odd. -/
theorem C6_transform_rule {FromFrame ToFrame S : Type} [Neg S]
    (p : Permutation FromFrame ToFrame) (vector : Vector S FromFrame)
    (bivector : Bivector S FromFrame) (trivector : Trivector S FromFrame) :
    ∃ cv cb : R3Element S,
      p.applyR3 vector.coordinates = some cv ∧
      p.applyVector vector = some ⟨cv⟩ ∧
      p.applyR3 bivector.coordinates = some cb ∧
      p.applyBivector bivector =
        some ⟨if p.coordinate_permutation_ ∈ [XZY, ZYX, YXZ] then -cb else cb⟩ ∧
      p.applyTrivector trivector =
        ⟨if p.coordinate_permutation_ ∈ [XZY, ZYX, YXZ]
          then -trivector.coordinates else trivector.coordinates⟩ ∧
      (p.Determinant.Negative = true ↔
        p.coordinate_permutation_ ∈ [XZY, ZYX, YXZ]) := by
  have hv := applyR3_table p vector.coordinates
  have hb := applyR3_table p bivector.coordinates
  have hd := Determinant_table p
  refine ⟨_, _, hv, ?_, hb, ?_, ?_, ?_⟩
  · rw [Permutation.applyVector, hv]
    rfl
  · rw [Permutation.applyBivector, hb, hd]
    rcases p with ⟨c⟩
    cases c <;> simp [Sign.smul]
  · rw [Permutation.applyTrivector, hd]
    rcases p with ⟨c⟩
    cases c <;> simp [Sign.smul]
  · rw [hd]
    rcases p with ⟨c⟩
    cases c <;> simp [Sign.Negative]

/-- C7: the identity permutation leaves every coordinate triple unchanged,
`Permutation::Identity()(v) = v`, and so maps every Vector, Bivector and
Trivector to one with the same coordinates. -/
theorem C7_identity_action {FromFrame ToFrame S : Type} [Neg S]
    (v : R3Element S) (vector : Vector S FromFrame)
    (bivector : Bivector S FromFrame) (trivector : Trivector S FromFrame) :
    (Permutation.Identity : Permutation FromFrame ToFrame).applyR3 v = some v ∧
      (Permutation.Identity : Permutation FromFrame ToFrame).applyVector vector =
        some ⟨vector.coordinates⟩ ∧
      (Permutation.Identity : Permutation FromFrame ToFrame).applyBivector bivector =
        some ⟨bivector.coordinates⟩ ∧
      (Permutation.Identity : Permutation FromFrame ToFrame).applyTrivector trivector =
        ⟨trivector.coordinates⟩ := by
  have h : ∀ w : R3Element S,
      (Permutation.Identity : Permutation FromFrame ToFrame).applyR3 w = some w :=
    fun w => applyR3_table _ w
  refine ⟨h v, ?_, ?_, ?_⟩
  · rw [Permutation.applyVector, h]
    rfl
  · rw [Permutation.applyBivector, h, Determinant_table]
    rfl
  · rw [Permutation.applyTrivector, Determinant_table]
    rfl

/-- C8: the six permutations are closed under composition with `Identity()` as
neutral element: the lookup in the composition table succeeds for all 36
ordered pairs and gives one of the six elements, and `Identity() * p = p` and
`p * Identity() = p` for every `p`. -/
theorem C8_closed_with_identity_neutral {FromFrame ThroughFrame ToFrame : Type}
    (p : Permutation ThroughFrame ToFrame)
    (q : Permutation FromFrame ThroughFrame) :
    (∃ r : Permutation FromFrame ToFrame,
        Permutation.mul p q = some r ∧
        r.coordinate_permutation_ ∈ [XYZ, YZX, ZXY, XZY, ZYX, YXZ]) ∧
      Permutation.mul (Permutation.Identity : Permutation ToFrame ToFrame) p =
        some p ∧
      Permutation.mul p (Permutation.Identity : Permutation ThroughFrame ThroughFrame) =
        some p := by
  rcases p with ⟨a⟩
  rcases q with ⟨b⟩
  cases a <;> cases b <;> exact ⟨⟨_, rfl, by simp⟩, rfl, rfl⟩

/-- C9: `Inverse()` maps `XYZ`, `XZY`, `ZYX` and `YXZ` each to itself and
exchanges the two 3-cycles `YZX` and `ZXY`; hence it is an involution,
`p.Inverse().Inverse() = p`, and it preserves the determinant. -/
theorem C9_inverse_table {FromFrame ToFrame : Type}
    (p : Permutation FromFrame ToFrame) :
    p.Inverse = some
        ⟨match p.coordinate_permutation_ with
         | XYZ => XYZ
         | YZX => ZXY
         | ZXY => YZX
         | XZY => XZY
         | ZYX => ZYX
         | YXZ => YXZ⟩ ∧
      (p.Inverse.bind fun q => q.Inverse) = some p ∧
      p.Inverse.map Permutation.Determinant = some p.Determinant := by
  rcases p with ⟨c⟩
  cases c <;> exact ⟨rfl, rfl, rfl⟩

/-! ### Grassmann algebra -/

/-- Two coordinate triples with the same three components are equal. -/
theorem R3Element.ext_components {S : Type} {a b : R3Element S}
    (hx : a.x = b.x) (hy : a.y = b.y) (hz : a.z = b.z) : a = b := by
  cases a
  cases b
  simp only [R3Element.mk.injEq]
  exact ⟨hx, hy, hz⟩

/-- Negation of a coordinate triple, component by component. -/
theorem R3Element.neg_mk {S : Type} [Neg S] (x y z : S) :
    -(⟨x, y, z⟩ : R3Element S) = ⟨-x, -y, -z⟩ :=
  rfl

/-- Addition of coordinate triples, component by component. -/
theorem R3Element.add_mk {S : Type} [Add S] (x y z x2 y2 z2 : S) :
    (⟨x, y, z⟩ : R3Element S) + ⟨x2, y2, z2⟩ = ⟨x + x2, y + y2, z + z2⟩ :=
  rfl

/-- C19: the Lagrange identity.  For every Vector `a` and Bivectors `β`, `γ` in
one frame, with coordinates in a commutative ring,
`a * Commutator(β, γ) = β * Wedge(a, γ) - γ * Wedge(a, β)` and
`Commutator(β, γ) * a = Wedge(a, β) * γ - β * Wedge(a, γ)`, where the
Commutator and the products of a Vector with a Bivector are cross products of
coordinates and `Wedge(Vector, Bivector)` is the dot product. -/
theorem C19_lagrange_identity {S Frame : Type} [CommRing S]
    (a : Vector S Frame) (β γ : Bivector S Frame) :
    a.mul_bivector (Commutator β γ) =
        β.mul_trivector (Wedge_vector_bivector a γ) -
          γ.mul_trivector (Wedge_vector_bivector a β) ∧
      (Commutator β γ).mul_vector a =
        (Wedge_vector_bivector a β).mul_bivector γ -
          (Wedge_vector_bivector a γ).mul_bivector β := by
  rcases a with ⟨⟨a1, a2, a3⟩⟩
  rcases β with ⟨⟨b1, b2, b3⟩⟩
  rcases γ with ⟨⟨c1, c2, c3⟩⟩
  constructor
  · show (Vector.mk _ : Vector S Frame) = Vector.mk _
    congr 1
    apply R3Element.ext_components <;>
      simp only [R3Element.Cross, R3Element.Dot, R3Element.scale_right,
        Commutator, Wedge_vector_bivector, Bivector.mul_trivector] <;>
      show _ = _ - _ <;> ring
  · show (Vector.mk _ : Vector S Frame) = Vector.mk _
    congr 1
    apply R3Element.ext_components <;>
      simp only [R3Element.Cross, R3Element.Dot, R3Element.scale_left,
        Commutator, Wedge_vector_bivector, Trivector.mul_bivector] <;>
      show _ = _ - _ <;> ring

/-- C20: the wedge product of two Vectors is alternating,
`Wedge(a, b) = -Wedge(b, a)` and `Wedge(a, a)` is the zero Bivector, where the
wedge of two Vectors is the cross product of their coordinates; and the
mixed-grade wedge is symmetric under operand swap,
`Wedge(v, β) = Wedge(β, v)`. -/
theorem C20_wedge_alternating {S Frame : Type} [CommRing S]
    (a b : Vector S Frame) (β : Bivector S Frame) :
    Wedge a b = -Wedge b a ∧
      Wedge a a = (⟨⟨0, 0, 0⟩⟩ : Bivector S Frame) ∧
      (Wedge a b).coordinates = R3Element.Cross a.coordinates b.coordinates ∧
      Wedge_vector_bivector a β = Wedge_bivector_vector β a := by
  rcases a with ⟨⟨a1, a2, a3⟩⟩
  rcases b with ⟨⟨b1, b2, b3⟩⟩
  rcases β with ⟨⟨c1, c2, c3⟩⟩
  refine ⟨?_, ?_, rfl, ?_⟩
  · show (Bivector.mk _ : Bivector S Frame) = Bivector.mk _
    congr 1
    apply R3Element.ext_components <;>
      simp only [R3Element.Cross] <;> show _ = -(_ - _) <;> ring
  · show (Bivector.mk _ : Bivector S Frame) = Bivector.mk _
    congr 1
    apply R3Element.ext_components <;> simp only [R3Element.Cross] <;> ring
  · show (Trivector.mk _ : Trivector S Frame) = Trivector.mk _
    congr 1
    simp only [R3Element.Dot]
    ring

/-- C21: `Commutator` on Bivectors is a Lie bracket: over a commutative ring,
`Commutator(α, β) = -Commutator(β, α)` and the Jacobi identity
`Commutator(α, Commutator(β, γ)) + Commutator(β, Commutator(γ, α)) +
Commutator(γ, Commutator(α, β)) = 0` holds. -/
theorem C21_commutator_is_lie_bracket {S Frame : Type} [CommRing S]
    (α β γ : Bivector S Frame) :
    Commutator α β = -Commutator β α ∧
      Commutator α (Commutator β γ) + Commutator β (Commutator γ α) +
          Commutator γ (Commutator α β) =
        (⟨⟨0, 0, 0⟩⟩ : Bivector S Frame) := by
  rcases α with ⟨⟨a1, a2, a3⟩⟩
  rcases β with ⟨⟨b1, b2, b3⟩⟩
  rcases γ with ⟨⟨c1, c2, c3⟩⟩
  constructor
  · show (Bivector.mk _ : Bivector S Frame) = Bivector.mk _
    congr 1
    apply R3Element.ext_components <;>
      simp only [R3Element.Cross] <;> show _ = -(_ - _) <;> ring
  · show (Bivector.mk _ : Bivector S Frame) = Bivector.mk _
    congr 1
    apply R3Element.ext_components <;>
      simp only [Commutator, R3Element.Cross] <;> show _ + _ + _ = _ <;> ring

/-- C23: a permutation transforms all grades consistently with the products
between them: `p(Wedge(a, b)) = Wedge(p(a), p(b))` for Vectors `a`, `b`,
`p(Wedge(a, β)) = Wedge(p(a), p(β))` for a Vector `a` and a Bivector `β`, and
`InnerProduct(p(a), p(b)) = InnerProduct(a, b)`, none of the transformations
failing. -/
theorem C23_permutation_respects_products {FromFrame ToFrame S : Type} [CommRing S]
    (p : Permutation FromFrame ToFrame) (a b : Vector S FromFrame)
    (β : Bivector S FromFrame) :
    ∃ (pa pb : Vector S ToFrame) (pβ : Bivector S ToFrame),
      p.applyVector a = some pa ∧ p.applyVector b = some pb ∧
      p.applyBivector β = some pβ ∧
      p.applyBivector (Wedge a b) = some (Wedge pa pb) ∧
      p.applyTrivector (Wedge_vector_bivector a β) = Wedge_vector_bivector pa pβ ∧
      InnerProduct pa pb = InnerProduct a b := by
  have hd := Determinant_table p
  have htable : ∀ v : R3Element S, ∃ w, p.applyR3 v = some w ∧
      w = (match p.coordinate_permutation_ with
        | XYZ => ⟨v.x, v.y, v.z⟩
        | YZX => ⟨v.y, v.z, v.x⟩
        | ZXY => ⟨v.z, v.x, v.y⟩
        | XZY => ⟨v.x, v.z, v.y⟩
        | ZYX => ⟨v.z, v.y, v.x⟩
        | YXZ => ⟨v.y, v.x, v.z⟩) :=
    fun v => ⟨_, applyR3_table p v, rfl⟩
  obtain ⟨ca, ha, hca⟩ := htable a.coordinates
  obtain ⟨cb, hb, hcb⟩ := htable b.coordinates
  obtain ⟨cβ, hβ, hcβ⟩ := htable β.coordinates
  obtain ⟨cw, hw, hcw⟩ := htable (Wedge a b).coordinates
  refine ⟨⟨ca⟩, ⟨cb⟩, ⟨p.Determinant.smul cβ⟩, ?_, ?_, ?_, ?_, ?_, ?_⟩
  · rw [Permutation.applyVector, ha]
    rfl
  · rw [Permutation.applyVector, hb]
    rfl
  · rw [Permutation.applyBivector, hβ]
    rfl
  · rw [Permutation.applyBivector, hw, hd, hcw, hca, hcb]
    rcases p with ⟨c⟩
    rcases a with ⟨⟨a1, a2, a3⟩⟩
    rcases b with ⟨⟨b1, b2, b3⟩⟩
    cases c <;>
      simp only [Option.map_some', Option.some.injEq, Wedge, Sign.smul,
        R3Element.Cross, Bool.false_eq_true, if_false, if_true, Bivector.mk.injEq] <;>
      first
        | rfl
        | (apply R3Element.ext_components <;> show -(_ - _) = _ <;> ring)
  · rw [Permutation.applyTrivector, hd, hca, hcβ]
    rcases p with ⟨c⟩
    rcases a with ⟨⟨a1, a2, a3⟩⟩
    rcases β with ⟨⟨b1, b2, b3⟩⟩
    cases c <;>
      simp only [Wedge_vector_bivector, Sign.smul, R3Element.Dot,
        Bool.false_eq_true, if_false, if_true, Trivector.mk.injEq] <;>
      first
        | ring1
        | (simp only [R3Element.neg_mk]; ring1)
  · rw [hca, hcb]
    rcases p with ⟨c⟩
    rcases a with ⟨⟨a1, a2, a3⟩⟩
    rcases b with ⟨⟨b1, b2, b3⟩⟩
    cases c <;> simp only [InnerProduct, R3Element.Dot] <;> ring

/-! ### Forgetting a permutation -/

set_option maxHeartbeats 1000000 in
/-- The action of the orthogonal map that `Forget` builds, for any value `s`
of the square root of one half with `s * s = 1 / 2`: the lookup succeeds, the
tabulated quaternion has squared norm 1, and the determinant times the rotated
triple is the permuted triple. -/
theorem Forget_action {FromFrame ToFrame : Type} (Sqrt : ℝ → ℝ)
    (hs : Sqrt 0.5 * Sqrt 0.5 = 1 / 2)
    (p : Permutation FromFrame ToFrame) (v : R3Element ℝ) :
    ∃ map : OrthogonalMap ℝ FromFrame ToFrame,
      p.Forget Sqrt = some map ∧
      map.determinant_ = p.Determinant ∧
      map.rotation_.quaternion_.norm_squared = 1 ∧
      p.applyR3 v = some (map.determinant_.smul (map.rotation_.applyR3 v)) := by
  have hd := Determinant_table p
  have hv := applyR3_table p v
  unfold Permutation.Forget
  generalize Sqrt 0.5 = s at hs ⊢
  have hD1 : 0 * 0 + (0 * 0 + -s * -s + s * s) = 1 := by linear_combination 2 * hs
  have hD2 : 0 * 0 + (-s * -s + 0 * 0 + s * s) = 1 := by linear_combination 2 * hs
  have hD3 : 0 * 0 + (-s * -s + s * s + 0 * 0) = 1 := by linear_combination 2 * hs
  rcases p with ⟨c⟩
  rcases v with ⟨v1, v2, v3⟩
  cases c <;> refine ⟨_, rfl, rfl, ?_, ?_⟩ <;>
    first
      | (norm_num [Quaternion.norm_squared, R3Element.Dot, hs]; done)
      | skip
  all_goals
    rw [hv]
    simp only [Option.some.injEq, hd, Sign.smul, Rotation.applyR3, Quaternion.mul,
      Quaternion.Inverse, Quaternion.norm_squared, R3Element.Dot, R3Element.Cross,
      R3Element.scale_left, Bool.false_eq_true, if_false, if_true,
      R3Element.add_mk, R3Element.neg_mk, R3Element.mk.injEq, hD1, hD2, hD3]
  · refine ⟨?_, ?_, ?_⟩ <;> norm_num
  · refine ⟨?_, ?_, ?_⟩ <;> norm_num <;> ring
  · refine ⟨?_, ?_, ?_⟩ <;> norm_num <;> ring
  · refine ⟨?_, ?_, ?_⟩
    · linear_combination (-2 * v1) * hs
    · linear_combination (-2 * v3) * hs
    · linear_combination (-2 * v2) * hs
  · refine ⟨?_, ?_, ?_⟩
    · linear_combination (-2 * v3) * hs
    · linear_combination (-2 * v2) * hs
    · linear_combination (-2 * v1) * hs
  · refine ⟨?_, ?_, ?_⟩
    · linear_combination (-2 * v2) * hs
    · linear_combination (-2 * v1) * hs
    · linear_combination (-2 * v3) * hs

/-- C22: `Forget()` preserves the action.  For each of the six permutations
`p` and every coordinate triple `v` over the reals, with
`sqrt_half = sqrt(1 / 2)`, the orthogonal map that `Forget()` builds has
determinant `p.Determinant()`, its tabulated quaternion `q` has norm 1, and it
sends a Vector with coordinates `v` where `p` sends it:
`p.Determinant() * (q v q^-1) = p(v)`. -/
theorem C22_forget_preserves_action {FromFrame ToFrame : Type}
    (p : Permutation FromFrame ToFrame) (v : R3Element ℝ) :
    ∃ map : OrthogonalMap ℝ FromFrame ToFrame,
      p.Forget Real.sqrt = some map ∧
      map.determinant_ = p.Determinant ∧
      Real.sqrt map.rotation_.quaternion_.norm_squared = 1 ∧
      p.applyR3 v = some (p.Determinant.smul (map.rotation_.applyR3 v)) ∧
      p.applyVector ⟨v⟩ = some (map.applyVector ⟨v⟩) := by
  have hs : Real.sqrt 0.5 * Real.sqrt 0.5 = 1 / 2 := by
    rw [Real.mul_self_sqrt (by norm_num)]
    norm_num
  obtain ⟨map, hmap, hdet, hnorm, hact⟩ := Forget_action Real.sqrt hs p v
  refine ⟨map, hmap, hdet, ?_, ?_, ?_⟩
  · rw [hnorm, Real.sqrt_one]
  · rw [hact, hdet]
  · rw [Permutation.applyVector, hact]
    rfl

/-! ### Sign -/

/-- C15: for every scalar `x` of an ordered type, `Sign(x).Negative()` holds if
and only if `x < 0`, and `Sign(x).Positive()` is the negation of
`Sign(x).Negative()`; in particular `Sign(0)` is positive and every `x > 0`
gives a positive Sign. -/
theorem C15_sign_of_scalar {S : Type} [Zero S] [Preorder S]
    [DecidableRel (fun a b : S => a < b)] (x : S) :
    ((Sign.ofScalar x).Negative = true ↔ x < 0) ∧
      (Sign.ofScalar x).Positive = !(Sign.ofScalar x).Negative ∧
      (Sign.ofScalar (0 : S)).Positive = true ∧
      (Sign.ofScalar (0 : S)).Negative = false ∧
      (∀ y : S, y > 0 → (Sign.ofScalar y).Positive = true) := by
  refine ⟨?_, rfl, ?_, ?_, ?_⟩
  · simp [Sign.ofScalar, Sign.Negative]
  · simp [Sign.ofScalar, Sign.Positive]
  · simp [Sign.ofScalar, Sign.Negative]
  · intro y hy
    simp [Sign.ofScalar, Sign.Positive, lt_asymm hy]

/-- C16: for all Signs `a` and `b`, `(a * b).Negative()` is the exclusive-or of
`a.Negative()` and `b.Negative()`; in particular `Sign(x) * Sign(y)` is
negative for every `x > 0` and `y < 0`. -/
theorem C16_sign_product_is_xor {S : Type} [Zero S] [Preorder S]
    [DecidableRel (fun a b : S => a < b)] (a b : Sign) :
    (Sign.mul a b).Negative = xor a.Negative b.Negative ∧
      (∀ x y : S, x > 0 → y < 0 →
        (Sign.mul (Sign.ofScalar x) (Sign.ofScalar y)).Negative = true) := by
  have hxor : ∀ c d : Sign, (Sign.mul c d).Negative = xor c.Negative d.Negative := by
    rintro ⟨c⟩ ⟨d⟩
    cases c <;> cases d <;> rfl
  refine ⟨hxor a b, ?_⟩
  intro x y hx hy
  rw [hxor]
  simp [Sign.ofScalar, Sign.Negative, lt_asymm hx, hy]

/-- C17: Sign multiplication is commutative and associative under
`operator==`: `a * b == b * a` and `(a * b) * c == a * (b * c)` for all Signs
`a`, `b`, `c`, and `operator!=` is false on both pairs. -/
theorem C17_sign_product_commutative_associative (a b c : Sign) :
    Sign.eq (Sign.mul a b) (Sign.mul b a) = true ∧
      Sign.eq (Sign.mul (Sign.mul a b) c) (Sign.mul a (Sign.mul b c)) = true ∧
      Sign.ne (Sign.mul a b) (Sign.mul b a) = false ∧
      Sign.ne (Sign.mul (Sign.mul a b) c) (Sign.mul a (Sign.mul b c)) = false := by
  rcases a with ⟨a⟩
  rcases b with ⟨b⟩
  rcases c with ⟨c⟩
  cases a <;> cases b <;> cases c <;> exact ⟨rfl, rfl, rfl, rfl⟩

/-- C18: Sign serialization round trip: `WriteToMessage` sets the one boolean
field `negative` of the message to `s.Negative()`, `ReadFromMessage` of the
written message gives a Sign equal to `s`, and `ReadFromMessage(m).Negative()`
is `m.negative` for every message `m`. -/
theorem C18_sign_serialization_round_trip (s : Sign) (m : serialization.Sign) :
    (s.WriteToMessage m).negative = s.Negative ∧
      Sign.ReadFromMessage (s.WriteToMessage m) = s ∧
      Sign.eq (Sign.ReadFromMessage (s.WriteToMessage m)) s = true ∧
      (Sign.ReadFromMessage m).Negative = m.negative := by
  rcases s with ⟨s⟩
  rcases m with ⟨m⟩
  cases s <;> cases m <;> exact ⟨rfl, rfl, rfl, rfl⟩

/-- C31: Sign construction is multiplicative on nonzero scalars: for all `x`,
`y` of a linearly ordered ring with `x != 0` and `y != 0`,
`Sign(x) * Sign(y) == Sign(x * y)`; and the hypothesis is needed, since
`Sign(0) * Sign(-1)` is negative while `Sign(0 * (-1))` is positive. -/
theorem C31_sign_of_product {S : Type} [LinearOrderedRing S] (x y : S)
    (hx : x ≠ 0) (hy : y ≠ 0) :
    Sign.eq (Sign.mul (Sign.ofScalar x) (Sign.ofScalar y)) (Sign.ofScalar (x * y)) =
        true ∧
      (Sign.mul (Sign.ofScalar (0 : S)) (Sign.ofScalar (-1 : S))).Negative = true ∧
      (Sign.ofScalar ((0 : S) * (-1))).Positive = true ∧
      Sign.eq (Sign.mul (Sign.ofScalar (0 : S)) (Sign.ofScalar (-1 : S)))
        (Sign.ofScalar ((0 : S) * (-1))) = false := by
  have hzero : Sign.ofScalar (0 : S) = ⟨false⟩ := by
    simp [Sign.ofScalar]
  have hminus : Sign.ofScalar (-1 : S) = ⟨true⟩ := by
    simp [Sign.ofScalar]
  have hprod : Sign.ofScalar ((0 : S) * (-1)) = ⟨false⟩ := by
    simp [Sign.ofScalar]
  refine ⟨?_, ?_, ?_, ?_⟩
  · rcases lt_or_gt_of_ne hx with hxneg | hxpos <;>
      rcases lt_or_gt_of_ne hy with hyneg | hypos
    · have hxy : ¬ x * y < 0 := not_lt.mpr (le_of_lt (mul_pos_of_neg_of_neg hxneg hyneg))
      simp [Sign.ofScalar, hxneg, hyneg, hxy]
      rfl
    · have hxy : x * y < 0 := mul_neg_of_neg_of_pos hxneg hypos
      have hy0 : ¬ y < 0 := not_lt.mpr (le_of_lt hypos)
      simp [Sign.ofScalar, hxneg, hy0, hxy]
      rfl
    · have hxy : x * y < 0 := mul_neg_of_pos_of_neg hxpos hyneg
      have hx0 : ¬ x < 0 := not_lt.mpr (le_of_lt hxpos)
      simp [Sign.ofScalar, hx0, hyneg, hxy]
      rfl
    · have hxy : ¬ x * y < 0 := not_lt.mpr (le_of_lt (mul_pos hxpos hypos))
      have hx0 : ¬ x < 0 := not_lt.mpr (le_of_lt hxpos)
      have hy0 : ¬ y < 0 := not_lt.mpr (le_of_lt hypos)
      simp [Sign.ofScalar, hx0, hy0, hxy]
      rfl
  · rw [hzero, hminus]
    rfl
  · rw [hprod]
    rfl
  · rw [hzero, hminus, hprod]
    rfl

/-- C31 at concrete scalars: the integers 2 and -3. -/
theorem C31_sign_of_product_witness :
    (2 : Int) ≠ 0 ∧ (-3 : Int) ≠ 0 ∧
      Sign.eq (Sign.mul (Sign.ofScalar (2 : Int)) (Sign.ofScalar (-3 : Int)))
        (Sign.ofScalar ((2 : Int) * (-3))) = true :=
  ⟨by decide, by decide, (C31_sign_of_product (2 : Int) (-3) (by decide) (by decide)).1⟩

end geometry

end principia

/-! ## Properties of the Чебышёв series -/

namespace principia

namespace numerics

namespace ChebyshevSeries

variable {K : Type} [LinearOrderedField K]

/-- Invariant of the Clenshaw loop: started with `k` iterations to run inside
the vector, the loop ends without a fault, and the value assembled from its
final pair is the partial Chebyshev sum up to `k` corrected by the pair it
started from. -/
theorem Evaluate_loop_invariant (cs : List K) (s : K) :
    ∀ (k : Nat) (b_kplus2 b_kplus1 : K), k < cs.length →
      ∃ r2 r1 : K,
        Evaluate_loop cs (s + s) k b_kplus2 b_kplus1 = .ok (r2, r1) ∧
        cs.getD 0 0 + s * r1 - r2 =
          (∑ i in Finset.range (k + 1), cs.getD i 0 * ChebyshevT s i) +
            b_kplus1 * ChebyshevT s (k + 1) - b_kplus2 * ChebyshevT s k := by
  intro k
  induction k with
  | zero =>
    intro b2 b1 _
    refine ⟨b2, b1, rfl, ?_⟩
    simp only [zero_add, Finset.sum_range_one, ChebyshevT]
    ring
  | succ k ih =>
    intro b2 b1 hk
    have hget : cs[k + 1]? = some (cs.getD (k + 1) 0) := by
      rw [List.getD_eq_getElem?_getD, List.getElem?_eq_getElem hk]
      rfl
    obtain ⟨r2, r1, hloop, hval⟩ :=
      ih b1 (cs.getD (k + 1) 0 + (s + s) * b1 - b2) (Nat.lt_of_succ_lt hk)
    refine ⟨r2, r1, ?_, ?_⟩
    · rw [Evaluate_loop, hget]
      exact hloop
    · rw [hval, Finset.sum_range_succ _ (k + 1)]
      simp only [ChebyshevT]
      ring

/-- The Chebyshev sum over the positions of the list is the sum over the index
range with defaulted reads. -/
theorem chebyshev_sum_eq_range (cs : List K) (s : K) :
    chebyshev_sum cs s = ∑ i in Finset.range cs.length, cs.getD i 0 * ChebyshevT s i := by
  rw [chebyshev_sum, ← Fin.sum_univ_eq_sum_range]
  refine Finset.sum_congr rfl fun i _ => ?_
  rw [List.getD_eq_getElem?_getD, List.getElem?_eq_getElem i.isLt]
  rfl

/-- What a successful construction yields. -/
theorem construct_ok (coefficients : List K) (t_min t_max : K)
    (series : ChebyshevSeries K)
    (h : construct coefficients t_min t_max = .ok series) :
    0 < coefficients.length ∧ t_min < t_max ∧
      series =
        { coefficients_ := coefficients
          degree_ := (coefficients.length : Int) - 1
          t_min_ := t_min
          t_max_ := t_max
          t_mean_ := t_min + 0.5 * (t_max - t_min)
          two_over_duration_ := 2 / (t_max - t_min) } := by
  unfold construct at h
  simp only at h
  split_ifs at h with h1 h2
  refine ⟨by omega, h2, ?_⟩
  injection h with h
  exact h.symm

/-- C1: for every series built from coefficients `c_0 .. c_d` over
`[t_min, t_max]` and every instant `t` whose normalized time
`s = (t - t_mean) * (2 / (t_max - t_min))` lies in `[-1.1, 1.1]`, `Evaluate(t)`
returns the Chebyshev sum `c_0 T_0(s) + ... + c_d T_d(s)`, in exact
arithmetic. -/
theorem C1_evaluate_is_chebyshev_sum (coefficients : List K) (t_min t_max t : K)
    (series : ChebyshevSeries K)
    (hseries : construct coefficients t_min t_max = .ok series)
    (hlow : -1.1 ≤ (t - series.t_mean_) * (2 / (t_max - t_min)))
    (hhigh : (t - series.t_mean_) * (2 / (t_max - t_min)) ≤ 1.1) :
    series.Evaluate t =
      .ok (chebyshev_sum coefficients
        ((t - series.t_mean_) * (2 / (t_max - t_min)))) := by
  obtain ⟨hlen, _, hs⟩ := construct_ok coefficients t_min t_max series hseries
  subst hs
  simp only at hlow hhigh ⊢
  have hk : ((coefficients.length : Int) - 1).toNat = coefficients.length - 1 := by
    omega
  obtain ⟨r2, r1, hloop, hval⟩ :=
    Evaluate_loop_invariant coefficients
      ((t - (t_min + 0.5 * (t_max - t_min))) * (2 / (t_max - t_min)))
      (coefficients.length - 1) 0 0 (by omega)
  have h0 : coefficients[0]? = some (coefficients.getD 0 0) := by
    rw [List.getD_eq_getElem?_getD, List.getElem?_eq_getElem hlen]
    rfl
  unfold Evaluate
  simp only [hk, hloop, h0, ge_iff_le, hlow, hhigh, not_true_eq_false, if_false]
  rw [hval, chebyshev_sum_eq_range, Nat.sub_add_cancel hlen]
  simp

/-- C1 at the specification's concrete series: coefficients `[1, 0, 1]` over
`[0, 10]` evaluated at `t = 5` give 0. -/
theorem C1_evaluate_is_chebyshev_sum_witness :
    ∃ series : ChebyshevSeries ℚ,
      construct [1, 0, 1] 0 10 = .ok series ∧
      -1.1 ≤ (5 - series.t_mean_) * (2 / (10 - 0)) ∧
      (5 - series.t_mean_) * (2 / (10 - 0)) ≤ 1.1 ∧
      series.Evaluate 5 = .ok 0 := by
  have hseries : construct [(1 : ℚ), 0, 1] 0 10 =
      .ok ⟨[1, 0, 1], 2, 0, 10, 5, 1 / 5⟩ := by
    norm_num [construct]
  have hlow : (-1.1 : ℚ) ≤
      (5 - (⟨[1, 0, 1], 2, 0, 10, 5, 1 / 5⟩ : ChebyshevSeries ℚ).t_mean_) *
        (2 / (10 - 0)) := by
    norm_num
  have hhigh : (5 - (⟨[1, 0, 1], 2, 0, 10, 5, 1 / 5⟩ : ChebyshevSeries ℚ).t_mean_) *
      (2 / (10 - 0)) ≤ (1.1 : ℚ) := by
    norm_num
  refine ⟨_, hseries, hlow, hhigh, ?_⟩
  rw [C1_evaluate_is_chebyshev_sum [1, 0, 1] 0 10 5 _ hseries hlow hhigh]
  rw [chebyshev_sum_eq_range]
  norm_num [Finset.sum_range_succ, ChebyshevT]

/-- C10: constructing a series from a coefficient list, `t_min` and `t_max`
is a fatal contract violation if and only if the list is empty or
`t_min >= t_max`; otherwise it yields a series holding exactly the given
coefficients and bounds, with `degree = size - 1`,
`t_mean = t_min + (t_max - t_min) / 2` and
`two_over_duration = 2 / (t_max - t_min)`. -/
theorem C10_construct_characterised (coefficients : List K) (t_min t_max : K) :
    ((∃ fault, construct coefficients t_min t_max = .error fault) ↔
        (coefficients = [] ∨ t_min ≥ t_max)) ∧
      construct coefficients t_min t_max =
        if coefficients.length = 0 ∨ t_min ≥ t_max then .error .check_failed
        else .ok
          { coefficients_ := coefficients
            degree_ := (coefficients.length : Int) - 1
            t_min_ := t_min
            t_max_ := t_max
            t_mean_ := t_min + (t_max - t_min) / 2
            two_over_duration_ := 2 / (t_max - t_min) } := by
  have hhalf : (0.5 : K) * (t_max - t_min) = (t_max - t_min) / 2 := by
    norm_num
    ring
  have heq : construct coefficients t_min t_max =
      if coefficients.length = 0 ∨ t_min ≥ t_max then .error .check_failed
      else .ok
        { coefficients_ := coefficients
          degree_ := (coefficients.length : Int) - 1
          t_min_ := t_min
          t_max_ := t_max
          t_mean_ := t_min + (t_max - t_min) / 2
          two_over_duration_ := 2 / (t_max - t_min) } := by
    unfold construct
    simp only [hhalf]
    by_cases hlen : coefficients.length = 0
    · have hneg : ¬ (0 : Int) ≤ (coefficients.length : Int) - 1 := by omega
      simp [hlen]
    · have hpos : (0 : Int) ≤ (coefficients.length : Int) - 1 := by omega
      by_cases hlt : t_min < t_max
      · simp [hlen, hpos, hlt, not_le.mpr hlt]
      · simp [hlen, hpos, hlt, not_lt.mp hlt]
  refine ⟨?_, heq⟩
  rw [heq, ← List.length_eq_zero]
  split_ifs with h
  · exact ⟨fun _ => h, fun _ => ⟨_, rfl⟩⟩
  · exact ⟨fun ⟨_, hf⟩ => (by cases hf), fun h2 => absurd h2 h⟩

/-- The vector comparison holds exactly for equal lists. -/
theorem vector_eq_iff (left right : List K) :
    vector_eq left right = true ↔ left = right := by
  induction left generalizing right with
  | nil =>
    cases right with
    | nil => simp [vector_eq]
    | cons b bs => simp [vector_eq]
  | cons a as ih =>
    cases right with
    | nil => simp [vector_eq]
    | cons b bs =>
      have h := ih bs
      simp only [vector_eq, Bool.and_eq_true, decide_eq_true_eq] at h
      simp only [vector_eq, List.length_cons, List.zipWith_cons_cons, List.all_cons,
        Bool.and_eq_true, decide_eq_true_eq, id_eq, List.cons.injEq,
        Nat.add_right_cancel_iff]
      constructor
      · rintro ⟨hlen, hab, hall⟩
        exact ⟨hab, h.mp ⟨hlen, hall⟩⟩
      · rintro ⟨hab, hrest⟩
        obtain ⟨hlen, hall⟩ := h.mpr hrest
        exact ⟨hlen, hab, hall⟩

/-- C14: equality of series is structural: `a == b` holds if and only if the
coefficient sequences have the same length and the same element at every
position and `t_min` and `t_max` are both equal; `a != b` is exactly the
negation of `a == b`. -/
theorem C14_equality_is_structural (a b : ChebyshevSeries K) :
    (eq a b = true ↔
        (a.coefficients_.length = b.coefficients_.length ∧
          ∀ i : Nat, a.coefficients_[i]? = b.coefficients_[i]?) ∧
        a.t_min_ = b.t_min_ ∧ a.t_max_ = b.t_max_) ∧
      (eq a b = true ↔
        a.coefficients_ = b.coefficients_ ∧ a.t_min_ = b.t_min_ ∧
          a.t_max_ = b.t_max_) ∧
      ne a b = !(eq a b) := by
  have hlist : a.coefficients_ = b.coefficients_ ↔
      (a.coefficients_.length = b.coefficients_.length ∧
        ∀ i : Nat, a.coefficients_[i]? = b.coefficients_[i]?) := by
    constructor
    · intro h
      rw [h]
      exact ⟨rfl, fun _ => rfl⟩
    · rintro ⟨_, h⟩
      exact List.ext_getElem? h
  have hstruct : eq a b = true ↔
      a.coefficients_ = b.coefficients_ ∧ a.t_min_ = b.t_min_ ∧
        a.t_max_ = b.t_max_ := by
    simp only [eq, Bool.and_eq_true, decide_eq_true_eq, vector_eq_iff, and_assoc]
  refine ⟨?_, hstruct, rfl⟩
  rw [hstruct, hlist]

/-- `Evaluate` on a constructed series, in one equation: the Chebyshev sum
inside the band, and a failed `CHECK` outside it. -/
theorem Evaluate_of_construct (coefficients : List K) (t_min t_max t : K)
    (series : ChebyshevSeries K)
    (hseries : construct coefficients t_min t_max = .ok series) :
    series.Evaluate t =
      if (t - series.t_mean_) * (2 / (t_max - t_min)) ≤ 1.1 ∧
          -1.1 ≤ (t - series.t_mean_) * (2 / (t_max - t_min)) then
        .ok (chebyshev_sum coefficients
          ((t - series.t_mean_) * (2 / (t_max - t_min))))
      else .error .check_failed := by
  obtain ⟨hlen, _, hs⟩ := construct_ok coefficients t_min t_max series hseries
  subst hs
  simp only
  have hk : ((coefficients.length : Int) - 1).toNat = coefficients.length - 1 := by
    omega
  obtain ⟨r2, r1, hloop, hval⟩ :=
    Evaluate_loop_invariant coefficients
      ((t - (t_min + 0.5 * (t_max - t_min))) * (2 / (t_max - t_min)))
      (coefficients.length - 1) 0 0 (by omega)
  have h0 : coefficients[0]? = some (coefficients.getD 0 0) := by
    rw [List.getD_eq_getElem?_getD, List.getElem?_eq_getElem hlen]
    rfl
  unfold Evaluate
  simp only [hk, hloop, h0, ge_iff_le]
  by_cases hhigh : (t - (t_min + 0.5 * (t_max - t_min))) * (2 / (t_max - t_min)) ≤ 1.1
  · by_cases hlow :
        -1.1 ≤ (t - (t_min + 0.5 * (t_max - t_min))) * (2 / (t_max - t_min))
    · simp only [hhigh, hlow, not_true_eq_false, if_false, and_self, if_true]
      rw [hval, chebyshev_sum_eq_range, Nat.sub_add_cancel hlen]
      simp
    · simp only [hhigh, hlow, not_true_eq_false, not_false_eq_true, if_false, if_true,
        and_false]
  · simp only [hhigh, not_false_eq_true, if_true, false_and, if_false]

/-- C11: for every constructed series and instant `t`, with
`s = (t - t_mean) * (2 / duration)` the normalized time, `Evaluate(t)` aborts
if and only if `s > 1.1` or `s < -1.1`, and for every `s` in the closed band
`[-1.1, 1.1]`, values with `1 < |s| <= 1.1` included, it returns a value. -/
theorem C11_evaluate_aborts_iff_out_of_band (coefficients : List K)
    (t_min t_max t : K) (series : ChebyshevSeries K)
    (hseries : construct coefficients t_min t_max = .ok series) :
    ((∃ fault, series.Evaluate t = .error fault) ↔
        ((t - series.t_mean_) * (2 / (t_max - t_min)) > 1.1 ∨
          (t - series.t_mean_) * (2 / (t_max - t_min)) < -1.1)) ∧
      ((∃ value, series.Evaluate t = .ok value) ↔
        (-1.1 ≤ (t - series.t_mean_) * (2 / (t_max - t_min)) ∧
          (t - series.t_mean_) * (2 / (t_max - t_min)) ≤ 1.1)) := by
  have h := Evaluate_of_construct coefficients t_min t_max t series hseries
  by_cases hband : (t - series.t_mean_) * (2 / (t_max - t_min)) ≤ 1.1 ∧
      -1.1 ≤ (t - series.t_mean_) * (2 / (t_max - t_min))
  · rw [if_pos hband] at h
    rw [h]
    constructor
    · constructor
      · rintro ⟨fault, hfault⟩
        cases hfault
      · rintro (hgt | hlt)
        · exact absurd hband.1 (not_le.mpr hgt)
        · exact absurd hband.2 (not_le.mpr hlt)
    · exact ⟨fun _ => ⟨hband.2, hband.1⟩, fun _ => ⟨_, rfl⟩⟩
  · rw [if_neg hband] at h
    rw [h]
    constructor
    · refine ⟨fun _ => ?_, fun _ => ⟨_, rfl⟩⟩
      by_contra hnot
      rw [not_or, not_lt, not_lt] at hnot
      exact hband ⟨hnot.1, hnot.2⟩
    · constructor
      · rintro ⟨value, hvalue⟩
        cases hvalue
      · rintro ⟨hlow, hhigh⟩
        exact absurd ⟨hhigh, hlow⟩ hband

/-- C11 at a concrete series: coefficients `[1, 0, 1]` over `[0, 10]` at
`t = 21 / 2`, outside the interval, where the normalized time is `1.1`, on the
edge of the band: the evaluation returns a value. -/
theorem C11_evaluate_aborts_iff_out_of_band_witness :
    ∃ series : ChebyshevSeries ℚ,
      construct [1, 0, 1] 0 10 = .ok series ∧
      (21 / 2 - series.t_mean_) * (2 / (10 - 0)) = 1.1 ∧
      (∃ value, series.Evaluate (21 / 2) = .ok value) ∧
      ¬ ∃ fault, series.Evaluate (21 / 2) = .error fault := by
  have hseries : construct [(1 : ℚ), 0, 1] 0 10 =
      .ok ⟨[1, 0, 1], 2, 0, 10, 5, 1 / 5⟩ := by
    norm_num [construct]
  have h := C11_evaluate_aborts_iff_out_of_band [1, 0, 1] 0 10 (21 / 2) _ hseries
  have hs : (21 / 2 - (⟨[1, 0, 1], 2, 0, 10, 5, 1 / 5⟩ : ChebyshevSeries ℚ).t_mean_) *
      (2 / (10 - 0)) = (1.1 : ℚ) := by
    norm_num
  refine ⟨_, hseries, hs, ?_, ?_⟩
  · rw [h.2, hs]
    norm_num
  · rw [h.1, hs]
    norm_num

/-- Writing the coefficients appends one serialized coefficient per element,
in order, and leaves the two instants of the message alone. -/
theorem write_coefficients_foldl {V Coefficient Point : Type}
    (serializers : Serializers V Coefficient Point) (coefficients : List V)
    (message : serialization.ChebyshevSeries Coefficient Point) :
    coefficients.foldl
        (fun (m : serialization.ChebyshevSeries Coefficient Point) coefficient =>
          { m with
            coefficient := m.coefficient ++
              [serializers.Serializer_WriteToMessage coefficient
                serializers.Coefficient_empty] })
        message =
      { coefficient := message.coefficient ++ coefficients.map
          (fun coefficient => serializers.Serializer_WriteToMessage coefficient
            serializers.Coefficient_empty)
        t_min := message.t_min
        t_max := message.t_max } := by
  induction coefficients generalizing message with
  | nil => simp
  | cons a as ih => simp [ih]

/-- Reading the coefficients pushes back one coefficient per sub-message, in
order. -/
theorem read_coefficients_foldl {V Coefficient : Type}
    (read : Coefficient → V) (messages : List Coefficient) (start : List V) :
    messages.foldl (fun coefficients coefficient => coefficients ++ [read coefficient])
        start =
      start ++ messages.map read := by
  induction messages generalizing start with
  | nil => simp
  | cons a as ih => simp [ih]

/-- C13: serialization round trip.  If the coefficient serializer and the
Instant serializer each read back what they wrote, then for every constructed
series `s`, `ReadFromMessage` of the message written by `s.WriteToMessage`
yields a series equal to `s` under `operator==`, with the same coefficients in
the same order and the same `t_min` and `t_max`, and with the same
`Evaluate(t)` at every `t`. -/
theorem C13_serialization_round_trip {Coefficient Point : Type}
    (serializers : Serializers K Coefficient Point)
    (hcoefficient : ∀ x : K,
      serializers.Serializer_ReadFromMessage
        (serializers.Serializer_WriteToMessage x serializers.Coefficient_empty) = x)
    (hinstant : ∀ x : K,
      serializers.Instant_ReadFromMessage
        (serializers.Instant_WriteToMessage x serializers.Point_empty) = x)
    (coefficients : List K) (t_min t_max : K) (series : ChebyshevSeries K)
    (hseries : construct coefficients t_min t_max = .ok series) :
    ∃ read : ChebyshevSeries K,
      ReadFromMessage serializers
          (WriteToMessage serializers series serializers.empty_message) =
        .ok read ∧
      eq read series = true ∧
      read.coefficients_ = series.coefficients_ ∧
      read.t_min_ = series.t_min_ ∧ read.t_max_ = series.t_max_ ∧
      ∀ t : K, read.Evaluate t = series.Evaluate t := by
  obtain ⟨_, _, hs⟩ := construct_ok coefficients t_min t_max series hseries
  have hread : ReadFromMessage serializers
      (WriteToMessage serializers series serializers.empty_message) = .ok series := by
    unfold ReadFromMessage WriteToMessage
    simp only [write_coefficients_foldl, read_coefficients_foldl]
    subst hs
    simp only [Serializers.empty_message, List.nil_append, List.map_map, hinstant]
    have hmap : List.map
        (serializers.Serializer_ReadFromMessage ∘ fun coefficient =>
          serializers.Serializer_WriteToMessage coefficient
            serializers.Coefficient_empty) coefficients = coefficients := by
      conv_rhs => rw [← List.map_id coefficients]
      exact List.map_congr_left fun x _ => hcoefficient x
    rw [hmap]
    exact hseries
  refine ⟨series, hread, ?_, rfl, rfl, rfl, fun _ => rfl⟩
  simp [eq, vector_eq_iff]

/-- C13 at a concrete series: coefficients `[1, 0, 1]` over `[0, 10]` with
rational numbers as messages, written as they are. -/
theorem C13_serialization_round_trip_witness :
    ∃ series read : ChebyshevSeries ℚ,
      construct [1, 0, 1] 0 10 = .ok series ∧
      ReadFromMessage (⟨0, 0, fun x _ => x, id, fun x _ => x, id⟩ : Serializers ℚ ℚ ℚ)
          (WriteToMessage ⟨0, 0, fun x _ => x, id, fun x _ => x, id⟩ series
            (Serializers.empty_message ⟨0, 0, fun x _ => x, id, fun x _ => x, id⟩)) =
        .ok read ∧
      eq read series = true := by
  have hseries : construct [(1 : ℚ), 0, 1] 0 10 =
      .ok ⟨[1, 0, 1], 2, 0, 10, 5, 1 / 5⟩ := by
    norm_num [construct]
  obtain ⟨read, hread, heq, _⟩ :=
    C13_serialization_round_trip
      (⟨0, 0, fun x _ => x, id, fun x _ => x, id⟩ : Serializers ℚ ℚ ℚ)
      (fun _ => rfl) (fun _ => rfl) [1, 0, 1] 0 10 _ hseries
  exact ⟨_, read, hseries, hread, heq⟩

/-- C12: `NewhallApproximation(degree, p, v, t_min, t_max)` is fatal and
returns no series for every integer `degree` outside `3..17` and whenever `p`
or `v` does not have exactly 9 elements. -/
theorem C12_newhall_rejects_bad_arguments (matrices : NewhallMatrices K)
    (degree : Int) (p v : List K) (t_min t_max : K)
    (hbad : degree < 3 ∨ 17 < degree ∨ p.length ≠ 9 ∨ v.length ≠ 9) :
    ∃ fault, NewhallApproximation matrices degree p v t_min t_max = .error fault := by
  unfold NewhallApproximation
  by_cases hp : kDivisions + 1 = (p.length : Int)
  swap
  · exact ⟨_, if_pos hp⟩
  by_cases hv : kDivisions + 1 = (v.length : Int)
  swap
  · rw [if_neg (not_not.mpr hp), if_pos hv]
    exact ⟨_, rfl⟩
  rw [if_neg (not_not.mpr hp), if_neg (not_not.mpr hv)]
  have hdegree : degree < 3 ∨ 17 < degree := by
    simp only [kDivisions] at hp hv
    rcases hbad with h | h | h | h
    · exact Or.inl h
    · exact Or.inr h
    · omega
    · omega
  simp only
  cases NewhallApproximation_loop p v (0.5 * (t_max - t_min)) 0 (2 * kDivisions)
      (List.replicate (2 * kDivisions + 2).toNat 0) with
  | error fault => exact ⟨fault, rfl⟩
  | ok pv =>
    simp only
    by_cases hneg : degree < 0
    · exact ⟨_, if_pos hneg⟩
    · rw [if_neg hneg]
      have h3 : degree ≠ 3 := by omega
      have h4 : degree ≠ 4 := by omega
      have h5 : degree ≠ 5 := by omega
      have h6 : degree ≠ 6 := by omega
      have h7 : degree ≠ 7 := by omega
      have h8 : degree ≠ 8 := by omega
      have h9 : degree ≠ 9 := by omega
      have h10 : degree ≠ 10 := by omega
      have h11 : degree ≠ 11 := by omega
      have h12 : degree ≠ 12 := by omega
      have h13 : degree ≠ 13 := by omega
      have h14 : degree ≠ 14 := by omega
      have h15 : degree ≠ 15 := by omega
      have h16 : degree ≠ 16 := by omega
      have h17 : degree ≠ 17 := by omega
      simp only [h3, h4, h5, h6, h7, h8, h9, h10, h11, h12, h13, h14, h15, h16, h17,
        if_false, List.length_nil, Nat.cast_zero]
      have hsize : ¬ degree + 1 = 0 := by omega
      exact ⟨_, if_pos hsize⟩

/-- C12 at concrete arguments: degree 2 with nine positions and nine
velocities over `[0, 1]`, whatever the matrices hold. -/
theorem C12_newhall_rejects_bad_arguments_witness :
    ((2 : Int) < 3 ∨ (17 : Int) < 2 ∨
        [(1 : ℚ), 2, 3, 4, 5, 6, 7, 8, 9].length ≠ 9 ∨
        [(9 : ℚ), 8, 7, 6, 5, 4, 3, 2, 1].length ≠ 9) ∧
      ∃ fault,
        NewhallApproximation
            (⟨[], [], [], [], [], [], [], [], [], [], [], [], [], [], []⟩ :
              NewhallMatrices ℚ)
            2 [1, 2, 3, 4, 5, 6, 7, 8, 9] [9, 8, 7, 6, 5, 4, 3, 2, 1] 0 1 =
          .error fault :=
  ⟨Or.inl (by decide),
    C12_newhall_rejects_bad_arguments _ 2 _ _ 0 1 (Or.inl (by decide))⟩

/-- A non-empty list and a non-empty interval construct a series. -/
theorem construct_of_valid (coefficients : List K) (t_min t_max : K)
    (hne : coefficients ≠ []) (hlt : t_min < t_max) :
    construct coefficients t_min t_max =
      .ok { coefficients_ := coefficients
            degree_ := (coefficients.length : Int) - 1
            t_min_ := t_min
            t_max_ := t_max
            t_mean_ := t_min + 0.5 * (t_max - t_min)
            two_over_duration_ := 2 / (t_max - t_min) } := by
  have hlen : 0 < coefficients.length := List.length_pos.mpr hne
  have hdeg : (0 : Int) ≤ (coefficients.length : Int) - 1 := by omega
  unfold construct
  simp only [hdeg, hlt, not_true_eq_false, if_false]

/-- The normalized time of a constructed series, as one fraction. -/
theorem scaled_t_eq (t_min t_max t : K) (hlt : t_min < t_max) :
    (t - (t_min + 0.5 * (t_max - t_min))) * (2 / (t_max - t_min)) =
      (2 * (t - t_min) - (t_max - t_min)) / (t_max - t_min) := by
  have hd : t_max - t_min ≠ 0 := ne_of_gt (sub_pos.mpr hlt)
  field_simp
  norm_num
  ring

/-- C27: in-interval evaluation is safe.  For every constructed series and
every `t` with `t_min <= t <= t_max`, the normalized time computed by
`Evaluate` lies in `[-1, 1]` (`t_min` goes to -1, the midpoint to 0 and
`t_max` to 1), so that neither range check fires, `Evaluate` returns a value,
and every coefficient index read, `k` from `degree` down to 1 and then 0, is
within bounds. -/
theorem C27_in_interval_evaluation_is_safe (coefficients : List K)
    (t_min t_max t : K) (series : ChebyshevSeries K)
    (hseries : construct coefficients t_min t_max = .ok series)
    (hlow : t_min ≤ t) (hhigh : t ≤ t_max) :
    (-1 ≤ (t - series.t_mean_) * series.two_over_duration_ ∧
        (t - series.t_mean_) * series.two_over_duration_ ≤ 1) ∧
      (t_min - series.t_mean_) * series.two_over_duration_ = -1 ∧
      ((t_min + t_max) / 2 - series.t_mean_) * series.two_over_duration_ = 0 ∧
      (t_max - series.t_mean_) * series.two_over_duration_ = 1 ∧
      (∃ value, series.Evaluate t = .ok value) ∧
      (∀ k : Int, 0 ≤ k → k ≤ series.degree_ →
        ∃ c, series.coefficients_[k.toNat]? = some c) := by
  obtain ⟨hlen, hlt, hs⟩ := construct_ok coefficients t_min t_max series hseries
  have hd : 0 < t_max - t_min := sub_pos.mpr hlt
  have hband : -1 ≤ (t - series.t_mean_) * series.two_over_duration_ ∧
      (t - series.t_mean_) * series.two_over_duration_ ≤ 1 := by
    rw [hs]
    simp only
    rw [scaled_t_eq t_min t_max t hlt, le_div_iff₀ hd, div_le_iff₀ hd]
    constructor <;> linarith
  refine ⟨hband, ?_, ?_, ?_, ?_, ?_⟩
  · rw [hs]
    simp only
    rw [scaled_t_eq t_min t_max t_min hlt, div_eq_iff (ne_of_gt hd)]
    ring
  · rw [hs]
    simp only
    rw [scaled_t_eq t_min t_max _ hlt, div_eq_iff (ne_of_gt hd)]
    ring
  · rw [hs]
    simp only
    rw [scaled_t_eq t_min t_max t_max hlt, div_eq_iff (ne_of_gt hd)]
    ring
  · have heval := Evaluate_of_construct coefficients t_min t_max t series hseries
    have htwo : series.two_over_duration_ = 2 / (t_max - t_min) := by rw [hs]
    rw [htwo] at hband
    have h1 : (t - series.t_mean_) * (2 / (t_max - t_min)) ≤ 1.1 :=
      le_trans hband.2 (by norm_num)
    have h2 : -1.1 ≤ (t - series.t_mean_) * (2 / (t_max - t_min)) :=
      le_trans (by norm_num) hband.1
    rw [if_pos ⟨h1, h2⟩] at heval
    exact ⟨_, heval⟩
  · intro k hk0 hk
    rw [hs] at hk ⊢
    simp only at hk ⊢
    have hlt2 : k.toNat < coefficients.length := by omega
    exact ⟨_, List.getElem?_eq_getElem hlt2⟩

/-- C27 at a concrete series: coefficients `[1, 0, 1]` over `[0, 10]` at
`t = 7`. -/
theorem C27_in_interval_evaluation_is_safe_witness :
    ∃ series : ChebyshevSeries ℚ,
      construct [1, 0, 1] 0 10 = .ok series ∧ (0 : ℚ) ≤ 7 ∧ (7 : ℚ) ≤ 10 ∧
      (-1 ≤ (7 - series.t_mean_) * series.two_over_duration_ ∧
        (7 - series.t_mean_) * series.two_over_duration_ ≤ 1) ∧
      ∃ value, series.Evaluate 7 = .ok value := by
  have hseries : construct [(1 : ℚ), 0, 1] 0 10 =
      .ok ⟨[1, 0, 1], 2, 0, 10, 5, 1 / 5⟩ := by
    norm_num [construct]
  have h := C27_in_interval_evaluation_is_safe [1, 0, 1] 0 10 7 _ hseries
    (by norm_num) (by norm_num)
  exact ⟨_, hseries, by norm_num, by norm_num, h.1, h.2.2.2.2.1⟩

/-- Appending a zero coefficient does not change the Chebyshev sum. -/
theorem chebyshev_sum_append_zero (coefficients : List K) (s : K) :
    chebyshev_sum (coefficients ++ [0]) s = chebyshev_sum coefficients s := by
  rw [chebyshev_sum_eq_range, chebyshev_sum_eq_range, List.length_append,
    List.length_singleton, Finset.sum_range_succ]
  have hlast : (coefficients ++ [0]).getD coefficients.length 0 = 0 := by
    rw [List.getD_eq_getElem?_getD, List.getElem?_append_right (le_refl _)]
    simp
  rw [hlast, zero_mul, add_zero]
  refine Finset.sum_congr rfl fun i hi => ?_
  have hi2 : i < coefficients.length := Finset.mem_range.mp hi
  rw [List.getD_eq_getElem?_getD, List.getD_eq_getElem?_getD,
    List.getElem?_append_left hi2]

/-- C30: different encodings of the same function are unequal.  For every
coefficient list `c_0 .. c_d` and bounds `t_min < t_max`, the series `A` with
coefficients `(c_0, ..., c_d)` and the series `B` with coefficients
`(c_0, ..., c_d, 0)` over the same bounds give the same `Evaluate(t)` at every
`t`, a value whenever `t` is in `[t_min, t_max]`, and yet `A == B` is false. -/
theorem C30_padded_series_evaluates_alike_but_differs (coefficients : List K)
    (t_min t_max : K) (hne : coefficients ≠ []) (hlt : t_min < t_max) :
    ∃ A B : ChebyshevSeries K,
      construct coefficients t_min t_max = .ok A ∧
      construct (coefficients ++ [0]) t_min t_max = .ok B ∧
      (∀ t : K, A.Evaluate t = B.Evaluate t) ∧
      (∀ t : K, t_min ≤ t → t ≤ t_max →
        ∃ value, A.Evaluate t = .ok value ∧ B.Evaluate t = .ok value) ∧
      eq A B = false ∧ ne A B = true := by
  have hA := construct_of_valid coefficients t_min t_max hne hlt
  have hB := construct_of_valid (coefficients ++ [0]) t_min t_max (by simp) hlt
  have hsame : ∀ t : K, Evaluate
      { coefficients_ := coefficients
        degree_ := (coefficients.length : Int) - 1
        t_min_ := t_min
        t_max_ := t_max
        t_mean_ := t_min + 0.5 * (t_max - t_min)
        two_over_duration_ := 2 / (t_max - t_min) } t =
      Evaluate
        { coefficients_ := coefficients ++ [0]
          degree_ := ((coefficients ++ [0]).length : Int) - 1
          t_min_ := t_min
          t_max_ := t_max
          t_mean_ := t_min + 0.5 * (t_max - t_min)
          two_over_duration_ := 2 / (t_max - t_min) } t := by
    intro t
    rw [Evaluate_of_construct coefficients t_min t_max t _ hA,
      Evaluate_of_construct (coefficients ++ [0]) t_min t_max t _ hB,
      chebyshev_sum_append_zero]
  have heq : eq
      { coefficients_ := coefficients
        degree_ := (coefficients.length : Int) - 1
        t_min_ := t_min
        t_max_ := t_max
        t_mean_ := t_min + 0.5 * (t_max - t_min)
        two_over_duration_ := 2 / (t_max - t_min) }
      { coefficients_ := coefficients ++ [0]
        degree_ := ((coefficients ++ [0]).length : Int) - 1
        t_min_ := t_min
        t_max_ := t_max
        t_mean_ := t_min + 0.5 * (t_max - t_min)
        two_over_duration_ := 2 / (t_max - t_min) } = false := by
    simp [eq, vector_eq]
  refine ⟨_, _, hA, hB, hsame, ?_, heq, ?_⟩
  · intro t hlow hhigh
    have hd : 0 < t_max - t_min := sub_pos.mpr hlt
    have hband : -1 ≤ (t - (t_min + 0.5 * (t_max - t_min))) * (2 / (t_max - t_min)) ∧
        (t - (t_min + 0.5 * (t_max - t_min))) * (2 / (t_max - t_min)) ≤ 1 := by
      rw [scaled_t_eq t_min t_max t hlt, le_div_iff₀ hd, div_le_iff₀ hd]
      constructor <;> linarith
    have heval := Evaluate_of_construct coefficients t_min t_max t _ hA
    rw [if_pos ⟨le_trans hband.2 (by norm_num), le_trans (by norm_num) hband.1⟩] at heval
    exact ⟨_, heval, by rw [← hsame t]; exact heval⟩
  · rw [ne, heq]
    rfl

/-- C30 at a concrete list: `[1, 0, 1]` and `[1, 0, 1, 0]` over `[0, 10]`. -/
theorem C30_padded_series_evaluates_alike_but_differs_witness :
    ([(1 : ℚ), 0, 1] ≠ [] ∧ (0 : ℚ) < 10) ∧
      ∃ A B : ChebyshevSeries ℚ,
        construct [1, 0, 1] 0 10 = .ok A ∧
        construct [1, 0, 1, 0] 0 10 = .ok B ∧
        (∀ t : ℚ, A.Evaluate t = B.Evaluate t) ∧
        eq A B = false := by
  obtain ⟨A, B, hA, hB, hsame, _, heq, _⟩ :=
    C30_padded_series_evaluates_alike_but_differs [(1 : ℚ), 0, 1] 0 10
      (by simp) (by norm_num)
  exact ⟨⟨by simp, by norm_num⟩, A, B, hA, hB, hsame, heq⟩

/-- The loop that records its writes computes the same `pv` as the loop of
`NewhallApproximation`. -/
theorem NewhallApproximation_loop_writes_fst (p v : List K) (d : K) :
    ∀ (n i : Nat) (j : Int) (pv : List K) (writes : List Int), 9 - i = n →
      (NewhallApproximation_loop_writes p v d i j pv writes).map Prod.fst =
        NewhallApproximation_loop p v d i j pv := by
  intro n
  induction n with
  | zero =>
    intro i j pv writes hn
    have hcond : ¬ ((i : Int) < kDivisions + 1 ∧ j ≥ 0) := by
      simp only [kDivisions]
      omega
    rw [NewhallApproximation_loop_writes, NewhallApproximation_loop, if_neg hcond,
      if_neg hcond]
    rfl
  | succ n ih =>
    intro i j pv writes hn
    rw [NewhallApproximation_loop_writes, NewhallApproximation_loop]
    by_cases hcond : (i : Int) < kDivisions + 1 ∧ j ≥ 0
    · rw [if_pos hcond, if_pos hcond]
      cases hp : p[i]? with
      | none => rfl
      | some p_i =>
        cases hv : v[i]? with
        | none => rfl
        | some v_i =>
          simp only
          by_cases hlen : j.toNat + 1 < pv.length
          · rw [if_pos hlen, if_pos hlen]
            exact ih (i + 1) (j - 2) _ _ (by omega)
          · rw [if_neg hlen, if_neg hlen]
            rfl
    · rw [if_neg hcond, if_neg hcond]
      rfl

/-- The loop run on nine positions, nine velocities and any eighteen initial
entries: the final `pv` and the indices written, in order. -/
theorem NewhallApproximation_loop_writes_eval
    (p0 p1 p2 p3 p4 p5 p6 p7 p8 v0 v1 v2 v3 v4 v5 v6 v7 v8 d : K)
    (x0 x1 x2 x3 x4 x5 x6 x7 x8 x9 x10 x11 x12 x13 x14 x15 x16 x17 : K) :
    NewhallApproximation_loop_writes [p0, p1, p2, p3, p4, p5, p6, p7, p8]
        [v0, v1, v2, v3, v4, v5, v6, v7, v8] d 0 16
        [x0, x1, x2, x3, x4, x5, x6, x7, x8, x9, x10, x11, x12, x13, x14, x15, x16, x17]
        [] =
      .ok ([p8, v8 * d, p7, v7 * d, p6, v6 * d, p5, v5 * d, p4, v4 * d, p3, v3 * d,
          p2, v2 * d, p1, v1 * d, p0, v0 * d],
        [16, 17, 14, 15, 12, 13, 10, 11, 8, 9, 6, 7, 4, 5, 2, 3, 0, 1]) := by
  simp [NewhallApproximation_loop_writes, kDivisions]

/-- The loop of `NewhallApproximation` run on nine positions and nine
velocities, from the eighteen zeros `pv` starts as. -/
theorem NewhallApproximation_loop_eval
    (p0 p1 p2 p3 p4 p5 p6 p7 p8 v0 v1 v2 v3 v4 v5 v6 v7 v8 d : K) :
    NewhallApproximation_loop [p0, p1, p2, p3, p4, p5, p6, p7, p8]
        [v0, v1, v2, v3, v4, v5, v6, v7, v8] d 0 (2 * kDivisions)
        (List.replicate (2 * kDivisions + 2).toNat 0) =
      .ok [p8, v8 * d, p7, v7 * d, p6, v6 * d, p5, v5 * d, p4, v4 * d, p3, v3 * d,
        p2, v2 * d, p1, v1 * d, p0, v0 * d] := by
  have hzeros : List.replicate (2 * kDivisions + 2).toNat (0 : K) =
      [0, 0, 0, 0, 0, 0, 0, 0, 0, 0, 0, 0, 0, 0, 0, 0, 0, 0] := rfl
  have hstart : 2 * kDivisions = 16 := rfl
  rw [hzeros, hstart, ← NewhallApproximation_loop_writes_fst _ _ _ 9 0 16 _ [] rfl,
    NewhallApproximation_loop_writes_eval]
  rfl

/-- A list of nine elements, spelled out. -/
theorem list_of_length_nine {V : Type} (l : List V) (h : l.length = 9) :
    ∃ a0 a1 a2 a3 a4 a5 a6 a7 a8 : V, l = [a0, a1, a2, a3, a4, a5, a6, a7, a8] := by
  rcases l with _ | ⟨a0, _ | ⟨a1, _ | ⟨a2, _ | ⟨a3, _ | ⟨a4, _ | ⟨a5, _ | ⟨a6,
    _ | ⟨a7, _ | ⟨a8, _ | ⟨a9, l⟩⟩⟩⟩⟩⟩⟩⟩⟩⟩
  all_goals
    first
      | exact ⟨_, _, _, _, _, _, _, _, _, rfl⟩
      | (simp only [List.length_cons, List.length_nil] at h; omega)

/-- C28: the layout of the Newhall input vector.  For `p` and `v` of nine
elements the loop ends with an 18-entry `pv`, having written each of the
indices 0 to 17 exactly once (in the order 16, 17, 14, 15, ..., 0, 1), with
`pv[16 - 2i] = p[i]` and `pv[17 - 2i] = v[i] * (t_max - t_min) / 2` for every
`i` in `0..8`: positions on the even entries, scaled velocities on the odd
ones, the last sample first. -/
theorem C28_newhall_input_layout (p v : List K) (t_min t_max : K)
    (hp : p.length = 9) (hv : v.length = 9) :
    ∃ pv : List K,
      NewhallApproximation_loop p v (0.5 * (t_max - t_min)) 0 (2 * kDivisions)
          (List.replicate (2 * kDivisions + 2).toNat 0) = .ok pv ∧
      NewhallApproximation_loop_writes p v (0.5 * (t_max - t_min)) 0 (2 * kDivisions)
          (List.replicate (2 * kDivisions + 2).toNat 0) [] =
        .ok (pv, [16, 17, 14, 15, 12, 13, 10, 11, 8, 9, 6, 7, 4, 5, 2, 3, 0, 1]) ∧
      pv.length = 18 ∧
      (∀ k : Int, 0 ≤ k → k < 18 →
        List.count k [16, 17, 14, 15, 12, 13, 10, 11, 8, 9, 6, 7, 4, 5, 2, 3, 0, 1] = 1) ∧
      (∀ i : Nat, i < 9 →
        pv[16 - 2 * i]? = p[i]? ∧
        pv[17 - 2 * i]? = (v[i]?).map fun v_i => v_i * ((t_max - t_min) / 2)) := by
  obtain ⟨p0, p1, p2, p3, p4, p5, p6, p7, p8, rfl⟩ := list_of_length_nine p hp
  obtain ⟨v0, v1, v2, v3, v4, v5, v6, v7, v8, rfl⟩ := list_of_length_nine v hv
  have hhalf : (0.5 : K) * (t_max - t_min) = (t_max - t_min) / 2 := by
    norm_num
    ring
  have hzeros : List.replicate (2 * kDivisions + 2).toNat (0 : K) =
      [0, 0, 0, 0, 0, 0, 0, 0, 0, 0, 0, 0, 0, 0, 0, 0, 0, 0] := rfl
  have hstart : 2 * kDivisions = 16 := rfl
  refine ⟨_, NewhallApproximation_loop_eval _ _ _ _ _ _ _ _ _ _ _ _ _ _ _ _ _ _ _, ?_,
    rfl, ?_, ?_⟩
  · rw [hzeros, hstart]
    exact NewhallApproximation_loop_writes_eval _ _ _ _ _ _ _ _ _ _ _ _ _ _ _ _ _ _ _
      _ _ _ _ _ _ _ _ _ _ _ _ _ _ _ _ _ _
  · intro k h0 h18
    interval_cases k <;> rfl
  · intro i hi
    rw [hhalf]
    interval_cases i <;> exact ⟨rfl, rfl⟩

/-- C28 at concrete samples: positions `1, ..., 9` and velocities
`10, ..., 90` over `[0, 1]`. -/
theorem C28_newhall_input_layout_witness :
    [(1 : ℚ), 2, 3, 4, 5, 6, 7, 8, 9].length = 9 ∧
      [(10 : ℚ), 20, 30, 40, 50, 60, 70, 80, 90].length = 9 ∧
      NewhallApproximation_loop [(1 : ℚ), 2, 3, 4, 5, 6, 7, 8, 9]
          [10, 20, 30, 40, 50, 60, 70, 80, 90] (0.5 * (1 - 0)) 0 (2 * kDivisions)
          (List.replicate (2 * kDivisions + 2).toNat 0) =
        .ok [9, 45, 8, 40, 7, 35, 6, 30, 5, 25, 4, 20, 3, 15, 2, 10, 1, 5] := by
  obtain ⟨pv, hloop, _, hlen, _, hlayout⟩ :=
    C28_newhall_input_layout [(1 : ℚ), 2, 3, 4, 5, 6, 7, 8, 9]
      [10, 20, 30, 40, 50, 60, 70, 80, 90] 0 1 rfl rfl
  refine ⟨rfl, rfl, ?_⟩
  rw [hloop]
  congr 1
  apply List.ext_getElem?
  intro n
  by_cases hn : n < 18
  · have h0 := hlayout 0 (by norm_num)
    have h1 := hlayout 1 (by norm_num)
    have h2 := hlayout 2 (by norm_num)
    have h3 := hlayout 3 (by norm_num)
    have h4 := hlayout 4 (by norm_num)
    have h5 := hlayout 5 (by norm_num)
    have h6 := hlayout 6 (by norm_num)
    have h7 := hlayout 7 (by norm_num)
    have h8 := hlayout 8 (by norm_num)
    norm_num at h0 h1 h2 h3 h4 h5 h6 h7 h8
    interval_cases n <;> simp [*]
  · rw [List.getElem?_eq_none (by omega), List.getElem?_eq_none (by simp; omega)]

/-- The switch picks a matrix exactly for the degrees 3 to 17. -/
theorem newhall_c_matrix_isSome {V : Type} (matrices : NewhallMatrices V)
    (degree : Int) :
    (newhall_c_matrix matrices degree).isSome = true ↔ 3 ≤ degree ∧ degree ≤ 17 := by
  constructor
  · intro hsome
    by_contra hout
    have h3 : degree ≠ 3 := by omega
    have h4 : degree ≠ 4 := by omega
    have h5 : degree ≠ 5 := by omega
    have h6 : degree ≠ 6 := by omega
    have h7 : degree ≠ 7 := by omega
    have h8 : degree ≠ 8 := by omega
    have h9 : degree ≠ 9 := by omega
    have h10 : degree ≠ 10 := by omega
    have h11 : degree ≠ 11 := by omega
    have h12 : degree ≠ 12 := by omega
    have h13 : degree ≠ 13 := by omega
    have h14 : degree ≠ 14 := by omega
    have h15 : degree ≠ 15 := by omega
    have h16 : degree ≠ 16 := by omega
    have h17 : degree ≠ 17 := by omega
    simp only [newhall_c_matrix, h3, h4, h5, h6, h7, h8, h9, h10, h11, h12, h13, h14,
      h15, h16, h17, if_false, Option.isSome_none, Bool.false_eq_true] at hsome
  · rintro ⟨hlow, hhigh⟩
    interval_cases degree <;> rfl

/-- The coefficients that the switch of `NewhallApproximation` computes are the
product of the picked matrix with `pv`, and stay empty when none is picked. -/
theorem NewhallApproximation_switch (matrices : NewhallMatrices K) (degree : Int)
    (pv : List K) :
    (if degree = 3 then
        FixedMatrix_mul matrices.newhall_c_matrix_degree_3_divisions_8_w04 pv
      else if degree = 4 then
        FixedMatrix_mul matrices.newhall_c_matrix_degree_4_divisions_8_w04 pv
      else if degree = 5 then
        FixedMatrix_mul matrices.newhall_c_matrix_degree_5_divisions_8_w04 pv
      else if degree = 6 then
        FixedMatrix_mul matrices.newhall_c_matrix_degree_6_divisions_8_w04 pv
      else if degree = 7 then
        FixedMatrix_mul matrices.newhall_c_matrix_degree_7_divisions_8_w04 pv
      else if degree = 8 then
        FixedMatrix_mul matrices.newhall_c_matrix_degree_8_divisions_8_w04 pv
      else if degree = 9 then
        FixedMatrix_mul matrices.newhall_c_matrix_degree_9_divisions_8_w04 pv
      else if degree = 10 then
        FixedMatrix_mul matrices.newhall_c_matrix_degree_10_divisions_8_w04 pv
      else if degree = 11 then
        FixedMatrix_mul matrices.newhall_c_matrix_degree_11_divisions_8_w04 pv
      else if degree = 12 then
        FixedMatrix_mul matrices.newhall_c_matrix_degree_12_divisions_8_w04 pv
      else if degree = 13 then
        FixedMatrix_mul matrices.newhall_c_matrix_degree_13_divisions_8_w04 pv
      else if degree = 14 then
        FixedMatrix_mul matrices.newhall_c_matrix_degree_14_divisions_8_w04 pv
      else if degree = 15 then
        FixedMatrix_mul matrices.newhall_c_matrix_degree_15_divisions_8_w04 pv
      else if degree = 16 then
        FixedMatrix_mul matrices.newhall_c_matrix_degree_16_divisions_8_w04 pv
      else if degree = 17 then
        FixedMatrix_mul matrices.newhall_c_matrix_degree_17_divisions_8_w04 pv
      else []) =
      match newhall_c_matrix matrices degree with
      | some matrix => FixedMatrix_mul matrix pv
      | none => [] := by
  by_cases hin : 3 ≤ degree ∧ degree ≤ 17
  · obtain ⟨hlow, hhigh⟩ := hin
    interval_cases degree <;> rfl
  · have h3 : degree ≠ 3 := by omega
    have h4 : degree ≠ 4 := by omega
    have h5 : degree ≠ 5 := by omega
    have h6 : degree ≠ 6 := by omega
    have h7 : degree ≠ 7 := by omega
    have h8 : degree ≠ 8 := by omega
    have h9 : degree ≠ 9 := by omega
    have h10 : degree ≠ 10 := by omega
    have h11 : degree ≠ 11 := by omega
    have h12 : degree ≠ 12 := by omega
    have h13 : degree ≠ 13 := by omega
    have h14 : degree ≠ 14 := by omega
    have h15 : degree ≠ 15 := by omega
    have h16 : degree ≠ 16 := by omega
    have h17 : degree ≠ 17 := by omega
    simp only [newhall_c_matrix, h3, h4, h5, h6, h7, h8, h9, h10, h11, h12, h13, h14,
      h15, h16, h17, if_false]

/-- C24, as the code has it: the switch of `NewhallApproximation` selects among
exactly fifteen matrices, one for each degree from 3 to 17: the set of degree
values for which a matrix is picked is the interval `3..17` of the integers
and has fifteen elements. -/
theorem C24_newhall_picks_fifteen_matrices {V : Type} (matrices : NewhallMatrices V) :
    {degree : Int | (newhall_c_matrix matrices degree).isSome = true} =
        Set.Icc 3 17 ∧
      Set.ncard {degree : Int | (newhall_c_matrix matrices degree).isSome = true} =
        15 := by
  have hset : {degree : Int | (newhall_c_matrix matrices degree).isSome = true} =
      Set.Icc 3 17 := by
    ext degree
    simp only [Set.mem_setOf_eq, Set.mem_Icc]
    exact newhall_c_matrix_isSome matrices degree
  refine ⟨hset, ?_⟩
  rw [hset, ← Finset.coe_Icc, Set.ncard_coe_Finset]
  rfl

/-- C24 fails as stated: with any matrices, here empty ones over the rationals,
the set of degree values for which a matrix is picked does not have fourteen
elements. -/
theorem C24_fourteen_matrices_counterexample :
    Set.ncard {degree : Int |
        (newhall_c_matrix (⟨[], [], [], [], [], [], [], [], [], [], [], [], [], [], []⟩ : NewhallMatrices ℚ) degree).isSome = true} ≠
      14 := by
  have hset : {degree : Int |
      (newhall_c_matrix (⟨[], [], [], [], [], [], [], [], [], [], [], [], [], [], []⟩ : NewhallMatrices ℚ) degree).isSome = true} =
      Set.Icc 3 17 := by
    ext degree
    simp only [Set.mem_setOf_eq, Set.mem_Icc]
    exact newhall_c_matrix_isSome _ degree
  rw [hset, ← Finset.coe_Icc, Set.ncard_coe_Finset]
  decide

/-- C29: whenever `NewhallApproximation(degree, p, v, t_min, t_max)` returns a
series, that series has exactly `degree + 1` coefficients, its bounds are the
given `t_min` and `t_max` with `t_min < t_max`, `degree` is in `3..17` and `p`
and `v` each have 9 elements. -/
theorem C29_newhall_result_shape (matrices : NewhallMatrices K) (degree : Int)
    (p v : List K) (t_min t_max : K) (series : ChebyshevSeries K)
    (hreturn : NewhallApproximation matrices degree p v t_min t_max = .ok series) :
    (series.coefficients_.length : Int) = degree + 1 ∧
      series.degree_ = degree ∧
      series.t_min_ = t_min ∧ series.t_max_ = t_max ∧ t_min < t_max ∧
      3 ≤ degree ∧ degree ≤ 17 ∧ p.length = 9 ∧ v.length = 9 := by
  unfold NewhallApproximation at hreturn
  by_cases hp : kDivisions + 1 = (p.length : Int)
  swap
  · rw [if_pos hp] at hreturn
    cases hreturn
  by_cases hv : kDivisions + 1 = (v.length : Int)
  swap
  · rw [if_neg (not_not.mpr hp), if_pos hv] at hreturn
    cases hreturn
  rw [if_neg (not_not.mpr hp), if_neg (not_not.mpr hv)] at hreturn
  simp only at hreturn
  cases hloop : NewhallApproximation_loop p v (0.5 * (t_max - t_min)) 0 (2 * kDivisions)
      (List.replicate (2 * kDivisions + 2).toNat 0) with
  | error fault =>
    rw [hloop] at hreturn
    cases hreturn
  | ok pv =>
    rw [hloop] at hreturn
    simp only at hreturn
    by_cases hneg : degree < 0
    · rw [if_pos hneg] at hreturn
      cases hreturn
    rw [if_neg hneg, NewhallApproximation_switch] at hreturn
    cases hpick : newhall_c_matrix matrices degree with
    | none =>
      rw [hpick] at hreturn
      simp only [List.length_nil, Nat.cast_zero] at hreturn
      have hsize : ¬ degree + 1 = 0 := by omega
      rw [if_pos hsize] at hreturn
      cases hreturn
    | some matrix =>
      rw [hpick] at hreturn
      simp only at hreturn
      have hrange := (newhall_c_matrix_isSome matrices degree).mp (by rw [hpick]; rfl)
      by_cases hsize : degree + 1 = ((FixedMatrix_mul matrix pv).length : Int)
      swap
      · rw [if_pos hsize] at hreturn
        cases hreturn
      rw [if_neg (not_not.mpr hsize)] at hreturn
      obtain ⟨_, hlt, hs⟩ := construct_ok _ t_min t_max series hreturn
      simp only [kDivisions] at hp hv
      refine ⟨?_, ?_, ?_, ?_, hlt, hrange.1, hrange.2, by omega, by omega⟩
      · rw [hs]
        exact hsize.symm
      · rw [hs]
        simp only
        omega
      · rw [hs]
      · rw [hs]

/-- C29 at a concrete call that returns: degree 3, nine positions and nine
velocities over `[0, 1]`, and a matrix of four rows for degree 3. -/
theorem C29_newhall_result_shape_witness :
    ∃ series : ChebyshevSeries ℚ,
      NewhallApproximation
          (⟨[[1], [2], [3], [4]], [], [], [], [], [], [], [], [], [], [], [], [], [],
            []⟩ : NewhallMatrices ℚ)
          3 [1, 2, 3, 4, 5, 6, 7, 8, 9] [10, 20, 30, 40, 50, 60, 70, 80, 90] 0 1 =
        .ok series ∧
      (series.coefficients_.length : Int) = 3 + 1 ∧
      series.t_min_ = 0 ∧ series.t_max_ = 1 := by
  have hreturn : NewhallApproximation
      (⟨[[1], [2], [3], [4]], [], [], [], [], [], [], [], [], [], [], [], [], [],
        []⟩ : NewhallMatrices ℚ)
      3 [1, 2, 3, 4, 5, 6, 7, 8, 9] [10, 20, 30, 40, 50, 60, 70, 80, 90] 0 1 =
      .ok ⟨[9, 18, 27, 36], 3, 0, 1, 1 / 2, 2⟩ := by
    simp only [NewhallApproximation, NewhallApproximation_loop_eval]
    norm_num [kDivisions, FixedMatrix_mul, construct]
  have h := C29_newhall_result_shape _ 3 _ _ 0 1 _ hreturn
  exact ⟨_, hreturn, h.1, h.2.2.1, h.2.2.2.1⟩

end ChebyshevSeries

end numerics

end principia

/-! ## Properties of the N-body system -/

namespace principia

namespace physics

namespace NBodySystem

open numerics

variable {K V : Type} [LinearOrderedField K] [AddCommGroup V] [Module K V]

/-- The force half-step on the massive bodies alone is the force half-step on
all the bodies, restricted to the massive ones. -/
theorem force_half_step_filter (inverse_cube : V → K) (Δt b : K)
    (states : List (BodyState K V)) :
    (force_half_step inverse_cube Δt b states).filter is_massive =
      force_half_step inverse_cube Δt b (states.filter is_massive) := by
  unfold force_half_step
  rw [List.filter_map, List.filter_filter]
  simp only [Bool.and_self]
  rfl

/-- The kinematic half-step commutes with the restriction to the massive
bodies. -/
theorem kinematic_half_step_filter (Δt a : K) (states : List (BodyState K V)) :
    (kinematic_half_step Δt a states).filter is_massive =
      kinematic_half_step Δt a (states.filter is_massive) := by
  unfold kinematic_half_step
  rw [List.filter_map]
  rfl

/-- One step commutes with the restriction to the massive bodies. -/
theorem step_filter (inverse_cube : V → K) (integrator : SymplecticIntegrator K)
    (Δt : K) (states : List (BodyState K V)) :
    (step inverse_cube integrator Δt states).filter is_massive =
      step inverse_cube integrator Δt (states.filter is_massive) := by
  unfold step
  induction integrator.stages generalizing states with
  | nil => rfl
  | cons stage stages ih =>
    rw [List.foldl_cons, List.foldl_cons, ih, kinematic_half_step_filter,
      force_half_step_filter]

/-- Retaining a state commutes with the restriction to the massive bodies. -/
theorem append_states_filter {F W : Type} (time : F) (states : List (BodyState F W)) :
    (append_states time states).filter is_massive =
      append_states time (states.filter is_massive) := by
  unfold append_states
  rw [List.filter_map]
  rfl

/-- The whole run of steps commutes with the restriction to the massive
bodies. -/
theorem Integrate_steps_filter (inverse_cube : V → K)
    (integrator : SymplecticIntegrator K) (t_initial Δt : K) (sampling_period : Int)
    (remaining : Nat) :
    ∀ (done : Nat) (states : List (BodyState K V)),
      (Integrate_steps inverse_cube integrator t_initial Δt sampling_period remaining
          done states).filter is_massive =
        Integrate_steps inverse_cube integrator t_initial Δt sampling_period remaining
          done (states.filter is_massive) := by
  induction remaining with
  | zero =>
    intro done states
    rfl
  | succ remaining ih =>
    intro done states
    rw [Integrate_steps, Integrate_steps, ih]
    by_cases hsample : ((done + 1 : Nat) : Int) % sampling_period = 0
    · rw [if_pos hsample, if_pos hsample, append_states_filter, step_filter]
    · rw [if_neg hsample, if_neg hsample, step_filter]

/-- A run of steps on no body gives no body. -/
theorem Integrate_steps_nil (inverse_cube : V → K)
    (integrator : SymplecticIntegrator K) (t_initial Δt : K) (sampling_period : Int)
    (remaining : Nat) :
    ∀ done : Nat,
      Integrate_steps inverse_cube integrator t_initial Δt sampling_period remaining
          done ([] : List (BodyState K V)) = [] := by
  have hstep : step inverse_cube integrator Δt ([] : List (BodyState K V)) = [] := by
    unfold step
    induction integrator.stages with
    | nil => rfl
    | cons stage stages ih =>
      rw [List.foldl_cons]
      exact ih
  induction remaining with
  | zero =>
    intro done
    rfl
  | succ remaining ih =>
    intro done
    rw [Integrate_steps]
    simp only [hstep]
    by_cases hsample : ((done + 1 : Nat) : Int) % sampling_period = 0
    · rw [if_pos hsample]
      exact ih (done + 1)
    · rw [if_neg hsample]
      exact ih (done + 1)

/-- C26: no back-reaction from massless bodies.  For every list of
trajectories that satisfies the precondition of `Integrate` (the same last
time, distinct bodies), `Integrate` succeeds with and without the trajectories
of the massless bodies, and the massive bodies' trajectories it returns are the
same in both calls. -/
theorem C26_no_back_reaction_from_massless_bodies [FloorRing K]
    (inverse_cube : V → K) (integrator : SymplecticIntegrator K) (tmax Δt : K)
    (sampling_period : Int) (trajectories : List (Trajectory K V))
    (hsame : ∀ a ∈ trajectories, ∀ b ∈ trajectories, a.last.time = b.last.time)
    (hdistinct : (trajectories.map fun trajectory => trajectory.body.name).Nodup) :
    ∃ extended : List (Trajectory K V),
      Integrate inverse_cube integrator tmax Δt sampling_period trajectories =
        .ok extended ∧
      Integrate inverse_cube integrator tmax Δt sampling_period
          (trajectories.filter fun trajectory => !trajectory.body.is_massless) =
        .ok (extended.filter fun trajectory => !trajectory.body.is_massless) := by
  have hstates : ∀ l : List (Trajectory K V),
      (l.filter fun trajectory => !trajectory.body.is_massless).map
          (fun trajectory : Trajectory K V =>
            (⟨trajectory, trajectory.last.position, trajectory.last.velocity⟩ :
              BodyState K V)) =
        (l.map fun trajectory : Trajectory K V =>
          (⟨trajectory, trajectory.last.position, trajectory.last.velocity⟩ :
            BodyState K V)).filter is_massive := by
    intro l
    rw [List.filter_map]
    rfl
  have hout : ∀ l : List (BodyState K V),
      (l.map fun state => state.trajectory).filter
          (fun trajectory => !trajectory.body.is_massless) =
        (l.filter is_massive).map fun state => state.trajectory := by
    intro l
    rw [List.filter_map]
    rfl
  cases htrajectories : trajectories with
  | nil => exact ⟨[], rfl, rfl⟩
  | cons first rest =>
    rw [← htrajectories]
    have hfirst : first ∈ trajectories := by
      rw [htrajectories]
      exact List.mem_cons_self _ _
    have hall : ∀ trajectory ∈ trajectories, trajectory.last.time = first.last.time :=
      fun trajectory h => hsame trajectory h first hfirst
    have hfull : Integrate inverse_cube integrator tmax Δt sampling_period trajectories =
        .ok ((Integrate_steps inverse_cube integrator first.last.time Δt sampling_period
          ⌊(tmax - first.last.time) / Δt⌋₊ 0
          (trajectories.map fun trajectory =>
            ⟨trajectory, trajectory.last.position, trajectory.last.velocity⟩)).map
          fun state => state.trajectory) := by
      rw [htrajectories] at hall hdistinct ⊢
      unfold Integrate
      simp only
      rw [if_neg (not_not.mpr hall), if_neg (not_not.mpr hdistinct)]
    refine ⟨_, hfull, ?_⟩
    rw [hout, Integrate_steps_filter, ← hstates]
    cases hmassive : trajectories.filter
        (fun trajectory => !trajectory.body.is_massless) with
    | nil =>
      rw [List.map_nil, Integrate_steps_nil]
      rfl
    | cons head others =>
      have hsub : ∀ trajectory ∈ head :: others, trajectory ∈ trajectories := by
        intro trajectory h
        rw [← hmassive] at h
        exact List.mem_of_mem_filter h
      have hhead : head.last.time = first.last.time :=
        hall head (hsub head (List.mem_cons_self _ _))
      have hall2 : ∀ trajectory ∈ head :: others,
          trajectory.last.time = head.last.time := by
        intro trajectory h
        rw [hhead]
        exact hall trajectory (hsub trajectory h)
      have hdistinct2 : ((head :: others).map fun trajectory : Trajectory K V =>
          trajectory.body.name).Nodup := by
        rw [← hmassive]
        exact List.Nodup.sublist
          (List.Sublist.map _ (List.filter_sublist _)) hdistinct
      unfold Integrate
      simp only
      rw [if_neg (not_not.mpr hall2), if_neg (not_not.mpr hdistinct2), hhead]

/-- C26 at a concrete system on a line: two massive bodies and a massless one
between them, all at time 0. -/
theorem C26_no_back_reaction_from_massless_bodies_witness :
    ∃ extended : List (Trajectory ℚ ℚ),
      Integrate (fun r : ℚ => 1 / (r * r * r)) ⟨[(1 / 2, 1), (1 / 2, 0)]⟩ 1 (1 / 2) 1
          [⟨⟨0, 1, false⟩, ⟨0, 0, 0⟩, []⟩, ⟨⟨1, 0, true⟩, ⟨0, 1, 0⟩, []⟩,
            ⟨⟨2, 2, false⟩, ⟨0, 3, 0⟩, []⟩] =
        .ok extended ∧
      Integrate (fun r : ℚ => 1 / (r * r * r)) ⟨[(1 / 2, 1), (1 / 2, 0)]⟩ 1 (1 / 2) 1
          [⟨⟨0, 1, false⟩, ⟨0, 0, 0⟩, []⟩, ⟨⟨2, 2, false⟩, ⟨0, 3, 0⟩, []⟩] =
        .ok (extended.filter fun trajectory => !trajectory.body.is_massless) :=
  C26_no_back_reaction_from_massless_bodies (fun r : ℚ => 1 / (r * r * r))
    ⟨[(1 / 2, 1), (1 / 2, 0)]⟩ 1 (1 / 2) 1
    [⟨⟨0, 1, false⟩, ⟨0, 0, 0⟩, []⟩, ⟨⟨1, 0, true⟩, ⟨0, 1, 0⟩, []⟩,
      ⟨⟨2, 2, false⟩, ⟨0, 3, 0⟩, []⟩]
    (by simp [Trajectory.last]) (by simp)

end NBodySystem

end physics

end principia

/-! ## Properties of the interchange conversions -/

namespace principia

namespace interface

/-- What `NaNIndependentEq` decides: both operands are NaNs, or neither is and
they are the same value or both zeros. -/
theorem NaNIndependentEq_iff (left right : Double) :
    NaNIndependentEq left right = true ↔
      (left.isnan = true ∧ right.isnan = true) ∨
        (left.isnan = false ∧ right.isnan = false ∧
          (left = right ∨ (left.is_zero = true ∧ right.is_zero = true))) := by
  unfold NaNIndependentEq Double.eq
  cases hl : left.isnan <;> cases hr : right.isnan <;> simp

/-- `NaNIndependentEq` holds of every value and itself. -/
theorem NaNIndependentEq_refl (a : Double) : NaNIndependentEq a a = true := by
  rw [NaNIndependentEq_iff]
  cases h : a.isnan
  · exact Or.inr ⟨rfl, rfl, Or.inl rfl⟩
  · exact Or.inl ⟨rfl, rfl⟩

/-- `NaNIndependentEq` does not depend on the order of its operands. -/
theorem NaNIndependentEq_symm (a b : Double) :
    NaNIndependentEq a b = NaNIndependentEq b a := by
  have himp : ∀ c d : Double, NaNIndependentEq c d = true →
      NaNIndependentEq d c = true := by
    intro c d h
    rw [NaNIndependentEq_iff] at h ⊢
    rcases h with ⟨hc, hd⟩ | ⟨hc, hd, heq | ⟨hzc, hzd⟩⟩
    · exact Or.inl ⟨hd, hc⟩
    · exact Or.inr ⟨hd, hc, Or.inl heq.symm⟩
    · exact Or.inr ⟨hd, hc, Or.inr ⟨hzd, hzc⟩⟩
  cases hab : NaNIndependentEq a b
  · cases hba : NaNIndependentEq b a
    · rfl
    · rw [himp b a hba] at hab
      cases hab
  · exact (himp a b hab).symm

/-- `NaNIndependentEq` is transitive. -/
theorem NaNIndependentEq_trans (a b c : Double)
    (hab : NaNIndependentEq a b = true) (hbc : NaNIndependentEq b c = true) :
    NaNIndependentEq a c = true := by
  rw [NaNIndependentEq_iff] at hab hbc ⊢
  rcases hab with ⟨ha, hb⟩ | ⟨ha, hb, hab⟩
  · rcases hbc with ⟨_, hc⟩ | ⟨hb2, _, _⟩
    · exact Or.inl ⟨ha, hc⟩
    · rw [hb] at hb2
      cases hb2
  · rcases hbc with ⟨hb2, _⟩ | ⟨_, hc, hbc⟩
    · rw [hb] at hb2
      cases hb2
    · refine Or.inr ⟨ha, hc, ?_⟩
      rcases hab with hab | ⟨hza, hzb⟩
      · rcases hbc with hbc | ⟨hzb, hzc⟩
        · exact Or.inl (hab.trans hbc)
        · exact Or.inr ⟨by rw [hab]; exact hzb, hzc⟩
      · rcases hbc with hbc | ⟨_, hzc⟩
        · exact Or.inr ⟨hza, by rw [← hbc]; exact hzb⟩
        · exact Or.inr ⟨hza, hzc⟩

/-- C32: the interchange conversions round-trip under NaN-independent equality:
`ToXYZ(FromXYZ(xyz)) == xyz` for every `xyz`, NaN components included, and
`operator==` on `XYZ` is reflexive, symmetric and transitive, two NaNs
comparing equal under `NaNIndependentEq` although `==` on `double` is false
on them; the quiet NaN with fraction 1 is such a value. -/
theorem C32_xyz_round_trip_and_equivalence (xyz a b c : XYZ) :
    XYZ.eq (ToXYZ (FromXYZ xyz)) xyz = true ∧
      XYZ.eq a a = true ∧
      XYZ.eq a b = XYZ.eq b a ∧
      (XYZ.eq a b = true → XYZ.eq b c = true → XYZ.eq a c = true) ∧
      (∀ d e : Double, d.isnan = true → e.isnan = true →
        NaNIndependentEq d e = true ∧ Double.eq d e = false) ∧
      Double.isnan ⟨false, 2047, 1⟩ = true := by
  have hrefl : ∀ v : XYZ, XYZ.eq v v = true := by
    intro v
    simp only [XYZ.eq, NaNIndependentEq_refl, Bool.and_self]
  refine ⟨hrefl xyz, hrefl a, ?_, ?_, ?_, by decide⟩
  · simp only [XYZ.eq, NaNIndependentEq_symm a.x b.x, NaNIndependentEq_symm a.y b.y,
      NaNIndependentEq_symm a.z b.z]
  · intro hab hbc
    simp only [XYZ.eq, Bool.and_eq_true] at hab hbc ⊢
    exact ⟨⟨NaNIndependentEq_trans _ _ _ hab.1.1 hbc.1.1,
      NaNIndependentEq_trans _ _ _ hab.1.2 hbc.1.2⟩,
      NaNIndependentEq_trans _ _ _ hab.2 hbc.2⟩
  · intro d e hd he
    constructor
    · rw [NaNIndependentEq_iff]
      exact Or.inl ⟨hd, he⟩
    · simp [Double.eq, hd]

end interface

end principia
